import Mathlib

/-!
Verification of the `babel-plugin-zod-hoist` rewrite pass
(`src/hoistZodSchema.ts`).

The development shallowly embeds the pass over a representative fragment of
the ECMAScript AST that the plugin inspects: identifiers, `this`, literals,
member accesses (computed or not), calls, object literals and arrow functions
with expression bodies on the expression side; import declarations, variable
declarations, function declarations, `return` and expression statements on
the statement side.  Arrow bodies are expressions, so statements are not
mutually recursive with expressions.

Scope/binding resolution (Babel's `path.scope.getBinding`) is embedded as
explicit scope chains: a list of enclosing non-program scopes (innermost
first) plus the program scope, each an association list from names to the
kind of declaring construct.

The driver (`visitExpr` below) recasts Babel's `CallExpression` visitor plus
its `processedNodes` / `getOutermostCall` bookkeeping structurally: the
visitor body fires exactly at call nodes that are ascent fixpoints of
`getOutermostCall` (their parent is not a member access whose own parent is a
call) and whose chain root is the `z` identifier; every other zod call either
maps to such a fixpoint ancestor (and is skipped through `processedNodes`) or
maps to a non-zod ascent target (and is skipped by `isGlobalZodReference`'s
root re-check), with identical outcomes.
-/

/-- Kind of the construct that declared a binding (Babel's `binding.path`
distinctions used by the pass: import specifiers vs everything else). -/
inductive BindKind where
  | importB
  | varB
  | funcB
  | paramB
deriving DecidableEq, Repr

/-- One lexical scope: names bound in it, with their declaring construct. -/
abbrev ScopeB := List (String × BindKind)

/-- Association-list lookup (first hit wins), mirroring name resolution
inside one scope. -/
def lookupA : List (String × BindKind) → String → Option BindKind
  | [], _ => none
  | (m, k) :: t, n => if m = n then some k else lookupA t n

/-- Lookup across a chain of scopes, innermost first (Babel's `getBinding`
walking outward through non-program scopes). -/
def lookupChain : List ScopeB → String → Option BindKind
  | [], _ => none
  | s :: t, n =>
    match lookupA s n with
    | some k => some k
    | none => lookupChain t n

mutual
/-- Expression fragment of the AST the plugin inspects. -/
inductive Expr where
  | ident (name : String)
  | thisE
  | lit (text : String)
  | member (obj : Expr) (prop : Expr) (computed : Bool)
  | call (callee : Expr) (args : ExprList)
  | objE (props : PropList)
  | arrow (params : List String) (body : Expr)
deriving DecidableEq, Repr

/-- Argument / element lists. -/
inductive ExprList where
  | nil
  | cons (head : Expr) (tail : ExprList)
deriving DecidableEq, Repr

/-- Object-literal properties: key, `computed` flag, value. -/
inductive PropList where
  | nil
  | cons (key : Expr) (computed : Bool) (value : Expr) (tail : PropList)
deriving DecidableEq, Repr
end

/-- Check whether a node is the `z` identifier (`isZodIdentifier`). -/
def isZodIdentifier : Expr → Bool
  | .ident n => n = "z"
  | _ => false

/-- Root object of a member/call chain (`getChainRoot`): follow `callee`
through calls and `object` through member accesses. -/
def getChainRoot : Expr → Expr
  | .call f _ => getChainRoot f
  | .member o _ _ => getChainRoot o
  | e => e

/-- Check whether a call chain starts at `z` (`isZodCall`). -/
def isZodCall (e : Expr) : Bool :=
  isZodIdentifier (getChainRoot e)

/-- Position of a node inside its parent, as seen from the node: the frame
carries the rest of the parent so the parent can be rebuilt.  This is the
path information `getOutermostCall` consumes when it walks `parentPath`. -/
inductive Frame where
  | memberObj (prop : Expr) (computed : Bool)
  | memberProp (obj : Expr)
  | calleeOf (args : ExprList)
  | argOf (callee : Expr) (before : ExprList) (after : ExprList)
  | otherF
deriving DecidableEq, Repr

/-- Frame test: the parent is a member expression (`isMemberExpression`). -/
def Frame.isMember : Frame → Bool
  | .memberObj _ _ => true
  | .memberProp _ => true
  | _ => false

/-- Frame test: the parent is a call expression (`isCallExpression`). -/
def Frame.isCall : Frame → Bool
  | .calleeOf _ => true
  | .argOf _ _ _ => true
  | _ => false

/-- Append for argument lists. -/
def ExprList.append : ExprList → ExprList → ExprList
  | .nil, b => b
  | .cons h t, b => .cons h (t.append b)

/-- Rebuild the parent node from a frame and the child expression. -/
def Frame.rebuild : Frame → Expr → Expr
  | .memberObj p c, e => .member e p c
  | .memberProp o, e => .member o e true
  | .calleeOf a, e => .call e a
  | .argOf f b a, e => .call f (b.append (.cons e a))
  | .otherF, e => e

/-- Test of the ascent step of `getOutermostCall`: the parent is a member
expression and the grandparent is a call expression.  The source checks only
the node kinds, not the position of the child inside the member access. -/
def stepPat : List Frame → Bool
  | f1 :: f2 :: _ => f1.isMember && f2.isCall
  | _ => false

/-- Walk up the chain (`getOutermostCall`): while the parent is a member
expression whose own parent is a call expression, move to that grandparent
call; return the final node together with its remaining ancestor frames. -/
def getOutermostCall (e : Expr) : List Frame → Expr × List Frame
  | f1 :: f2 :: fs =>
    if f1.isMember && f2.isCall then
      getOutermostCall (f2.rebuild (f1.rebuild e)) fs
    else
      (e, f1 :: f2 :: fs)
  | fs => (e, fs)

mutual
/-- Every identifier name occurring anywhere in an expression (used to model
the name pool `generateUidIdentifier` must avoid). -/
def exprNames : Expr → List String
  | .ident n => [n]
  | .thisE => []
  | .lit _ => []
  | .member o p _ => exprNames o ++ exprNames p
  | .call f a => exprNames f ++ exprListNames a
  | .objE ps => propListNames ps
  | .arrow ps b => ps ++ exprNames b

def exprListNames : ExprList → List String
  | .nil => []
  | .cons h t => exprNames h ++ exprListNames t

def propListNames : PropList → List String
  | .nil => []
  | .cons k _ v t => exprNames k ++ exprNames v ++ propListNames t
end

/-- Comma-separated rendering helper. -/
def commaSep : List String → String
  | [] => ""
  | [s] => s
  | s :: t => s ++ "," ++ commaSep t

mutual
/-- Canonical textual rendering of an expression, standing in for
`generate(node).code` of the external printer: the plugin uses the printed
text only as the deduplication key. -/
def printExpr : Expr → String
  | .ident n => n
  | .thisE => "this"
  | .lit s => s
  | .member o p c =>
    if c then printExpr o ++ "[" ++ printExpr p ++ "]"
    else printExpr o ++ "." ++ printExpr p
  | .call f a => printExpr f ++ "(" ++ printArgs a ++ ")"
  | .objE ps => "\x7b" ++ printProps ps ++ "\x7d"
  | .arrow ps b => "(" ++ commaSep ps ++ ")=>" ++ printExpr b

def printArgs : ExprList → String
  | .nil => ""
  | .cons h .nil => printExpr h
  | .cons h t => printExpr h ++ "," ++ printArgs t

def printProps : PropList → String
  | .nil => ""
  | .cons k c v t =>
    (if c then "[" ++ printExpr k ++ "]" else printExpr k) ++ ":" ++
      printExpr v ++ (match t with | .nil => "" | _ => ",") ++ printProps t
end

/-- Context of a node during the pass: the chain of enclosing non-program
scopes (innermost first), the program scope, whether some ancestor is a call
whose chain root is `z` (`isNestedInZodCall`), and whether the node has a
function parent (`getFunctionParent` returns one). -/
structure Ctx where
  locals : List ScopeB
  prog : ScopeB
  nested : Bool
  inFn : Bool
deriving DecidableEq, Repr

/-- Shadow test of `isGlobalZodReference`: the binding that
`path.scope.getBinding('z')` resolves belongs to a nested (non-program)
scope.  With no local binding the name is either unbound (treated as the
global zod) or bound at program scope; both are accepted by the source. -/
def zShadowed (ctx : Ctx) : Bool :=
  (lookupChain ctx.locals "z").isSome

/-- Outcome of classifying one identifier reference inside a candidate
subtree, mirroring the branch structure of `canSafelyHoist`'s `Identifier`
handler after its skip rules. -/
inductive SClass where
  | acceptInner
  | acceptImport
  | acceptFree
  | rejectProg
  | rejectLocal
deriving DecidableEq, Repr

/-- Classification events recorded by the safety sub-traversal. -/
inductive SEvent where
  | classified (name : String) (c : SClass)
  | thisRejected
deriving DecidableEq, Repr

/-- Whether a classification disqualifies the candidate. -/
def SClass.isReject : SClass → Bool
  | .rejectProg => true
  | .rejectLocal => true
  | _ => false

/-- State of the safety sub-traversal: the `canHoist` flag, whether
`idPath.stop()` has been called, and the trace of classifications. -/
structure SSt where
  canHoist : Bool
  stopped : Bool
  events : List SEvent
deriving DecidableEq, Repr

/-- Classify one identifier reference: a binding declared inside the
candidate subtree (`path.isAncestor(binding.path)`) is accepted; a binding in
an enclosing non-program scope is rejected; a program-scope binding is
accepted exactly for import specifiers; no binding at all is accepted. -/
def classify (inner : List ScopeB) (ctx : Ctx) (n : String) : SClass :=
  match lookupChain inner n with
  | some _ => .acceptInner
  | none =>
    match lookupChain ctx.locals n with
    | some _ => .rejectLocal
    | none =>
      match lookupA ctx.prog n with
      | some .importB => .acceptImport
      | some _ => .rejectProg
      | none => .acceptFree

/-- The `Identifier` handler of `canSafelyHoist` for a reference that is not
a non-computed member property and not a non-computed object key: skip the
name `z`, otherwise classify; a rejecting classification clears `canHoist`
and stops the sub-traversal. -/
def identStep (inner : List ScopeB) (ctx : Ctx) (n : String) (st : SSt) : SSt :=
  if st.stopped then st
  else if n = "z" then st
  else
    let c := classify inner ctx n
    if c.isReject then
      ⟨false, true, st.events ++ [.classified n c]⟩
    else
      ⟨st.canHoist, st.stopped, st.events ++ [.classified n c]⟩

/-- The `ThisExpression` handler of `canSafelyHoist`: clear `canHoist`.  The
source does not call `stop()` here. -/
def thisStep (st : SSt) : SSt :=
  if st.stopped then st
  else ⟨false, st.stopped, st.events ++ [.thisRejected]⟩

mutual
/-- Safety sub-traversal of a candidate subtree (`path.traverse` inside
`canSafelyHoist`), in Babel's pre-order: callee before arguments, object
before property, key before value, parameters before the arrow body.
`inner` accumulates the scopes opened inside the candidate, so a binding
found there is one whose declaration travels with the relocated expression.
Non-computed member properties and non-computed object keys are the
positions the handler's skip rules exclude. -/
def safeE (ctx : Ctx) (inner : List ScopeB) : Expr → SSt → SSt
  | .ident n, st => identStep inner ctx n st
  | .thisE, st => thisStep st
  | .lit _, st => st
  | .member o p c, st =>
    let st1 := safeE ctx inner o st
    if c then safeE ctx inner p st1 else st1
  | .call f a, st => safeArgs ctx inner a (safeE ctx inner f st)
  | .objE ps, st => safeProps ctx inner ps st
  | .arrow ps b, st =>
    let inner' := (ps.map (fun p => (p, BindKind.paramB))) :: inner
    let st1 := ps.foldl (fun s p => identStep inner' ctx p s) st
    safeE ctx inner' b st1

def safeArgs (ctx : Ctx) (inner : List ScopeB) : ExprList → SSt → SSt
  | .nil, st => st
  | .cons h t, st => safeArgs ctx inner t (safeE ctx inner h st)

def safeProps (ctx : Ctx) (inner : List ScopeB) : PropList → SSt → SSt
  | .nil, st => st
  | .cons k c v t, st =>
    let st1 := if c then safeE ctx inner k st else st
    safeProps ctx inner t (safeE ctx inner v st1)
end

/-- Run the safety sub-traversal of `canSafelyHoist` from a clean state. -/
def runSafety (ctx : Ctx) (e : Expr) : SSt :=
  safeE ctx [] e ⟨true, false, []⟩

/-- Decision of `canSafelyHoist`: the `canHoist` flag after the
sub-traversal. -/
def canSafelyHoist (ctx : Ctx) (e : Expr) : Bool :=
  (runSafety ctx e).canHoist

mutual
/-- Presence of a `this` use in the region the safety sub-traversal visits
(everywhere except non-computed member properties and non-computed object
keys, which in the source AST can only be identifiers anyway). -/
def containsThis : Expr → Bool
  | .ident _ => false
  | .thisE => true
  | .lit _ => false
  | .member o p c => containsThis o || (c && containsThis p)
  | .call f a => containsThis f || containsThisArgs a
  | .objE ps => containsThisProps ps
  | .arrow _ b => containsThis b

def containsThisArgs : ExprList → Bool
  | .nil => false
  | .cons h t => containsThis h || containsThisArgs t

def containsThisProps : PropList → Bool
  | .nil => false
  | .cons k c v t => (c && containsThis k) || containsThis v || containsThisProps t
end

/-- Whether an event disqualifies the candidate. -/
def SEvent.isDisq : SEvent → Bool
  | .classified _ c => c.isReject
  | .thisRejected => true

/-- Whether an event is a classification of an identifier reference. -/
def SEvent.isClass : SEvent → Bool
  | .classified _ _ => true
  | .thisRejected => false

/-- The short-circuit property as the specification states it: once some
event disqualifies the candidate, no further reference is classified. -/
def noClassAfterDisq : List SEvent → Bool
  | [] => true
  | ev :: t => if ev.isDisq then t.all (fun x => !x.isClass) else noClassAfterDisq t

/-- The short-circuit property the source actually has: once a rejecting
identifier classification occurs, nothing further is recorded at all. -/
def noEventAfterReject : List SEvent → Bool
  | [] => true
  | .classified _ c :: t => if c.isReject then t.isEmpty else noEventAfterReject t
  | .thisRejected :: t => noEventAfterReject t

mutual
/-- Statement fragment of the AST: import declarations (binding their local
names), variable declarations, function declarations, `return` and
expression statements. -/
inductive Stmt where
  | importD (names : List String)
  | varD (name : String) (init : Expr)
  | funcD (fname : String) (params : List String) (body : StmtList)
  | ret (e : Expr)
  | exprS (e : Expr)
deriving DecidableEq, Repr

/-- Statement lists (program bodies and function bodies). -/
inductive StmtList where
  | nil
  | cons (head : Stmt) (tail : StmtList)
deriving DecidableEq, Repr
end

/-- Append of statement lists. -/
def StmtList.append : StmtList → StmtList → StmtList
  | .nil, b => b
  | .cons h t, b => .cons h (t.append b)

/-- Bindings a single statement contributes to its enclosing scope. -/
def bindOf : Stmt → ScopeB
  | .importD ns => ns.map (fun n => (n, BindKind.importB))
  | .varD n _ => [(n, BindKind.varB)]
  | .funcD n _ _ => [(n, BindKind.funcB)]
  | .ret _ => []
  | .exprS _ => []

/-- Bindings of a statement list, position-independent as in Babel's scope
registration (a `const` declared later in the block still owns a binding of
the block's scope). -/
def collectBinds : StmtList → ScopeB
  | .nil => []
  | .cons s t => bindOf s ++ collectBinds t

mutual
/-- Every identifier name occurring in a statement. -/
def stmtNames : Stmt → List String
  | .importD ns => ns
  | .varD n i => n :: exprNames i
  | .funcD n ps b => n :: ps ++ stmtListNames b
  | .ret e => exprNames e
  | .exprS e => exprNames e

def stmtListNames : StmtList → List String
  | .nil => []
  | .cons s t => stmtNames s ++ stmtListNames t
end

/-- Largest length of any string in a list. -/
def maxLen (l : List String) : Nat :=
  l.foldr (fun s m => max s.length m) 0

/-- Modelled from the spec: the fresh-name generator is
`programPath.scope.generateUidIdentifier` of the external `@babel/traverse`
infrastructure (not part of this repository's sources); the specification
requires only a fresh, globally-unique top-level name, collision-free against
all existing names in the program including ones introduced earlier in the
same pass.  The model prefers the plain `_`-prefixed base and otherwise pads
until the name is longer than every used name. -/
def genUid (used : List String) (base : String) : String :=
  if "_" ++ base ∈ used then
    "_" ++ base ++ String.mk (List.replicate (maxLen used + 1) '_')
  else
    "_" ++ base

/-- Modelled from the spec: `generateHash` truncates a sha-256 digest from
the external `node:crypto` module; the pass uses it only to build the base of
the generated name, so any deterministic function of the printed code is an
adequate stand-in. -/
def generateHash (code : String) : String := code

/-- Outcome of the visitor body at a decision site, in the order the source
checks them: nested inside another zod call, `z` shadowed, already at program
level (no function parent), unsafe to hoist, or accepted (reusing an earlier
entry or creating a new one). -/
inductive Outcome where
  | skipNested
  | skipShadow
  | skipTop
  | skipUnsafe
  | acceptDup (code name : String)
  | acceptNew (code name : String)
deriving DecidableEq, Repr

/-- Log entry for one decision site: the candidate node, whether `z` was
resolved to a nested-scope binding there, and the outcome. -/
structure DecEvent where
  site : Expr
  shadowed : Bool
  outcome : Outcome
deriving DecidableEq, Repr

/-- State threaded through one pass: the deduplication map from printed code
to the generated name (`hoistedSchemas`), the queue of schemas to hoist in
discovery order (`schemasToHoist`), the pool of names the generator must
avoid, and the decision log. -/
structure PassSt where
  codeMap : List (String × String)
  queue : List (String × Expr)
  used : List String
  log : List DecEvent
deriving DecidableEq, Repr

/-- Lookup in the deduplication map. -/
def lookupCode : List (String × String) → String → Option String
  | [], _ => none
  | (c, n) :: t, c' => if c = c' then some n else lookupCode t c'

/-- Components of the pass state that determine the output program (the log
is observation only). -/
def PassSt.core (st : PassSt) : List (String × String) × List (String × Expr) × List String :=
  (st.codeMap, st.queue, st.used)

/-- Decision taken by the `CallExpression` visitor body at a decision site,
in source order: `isNestedInZodCall`, then `isGlobalZodReference`, then
`getFunctionParent`, then `canSafelyHoist`, then the deduplication lookup. -/
def decideOutcome (ctx : Ctx) (e : Expr) (st : PassSt) : Outcome :=
  if ctx.nested then .skipNested
  else if zShadowed ctx then .skipShadow
  else if !ctx.inFn then .skipTop
  else if !canSafelyHoist ctx e then .skipUnsafe
  else
    let code := printExpr e
    match lookupCode st.codeMap code with
    | some n => .acceptDup code n
    | none => .acceptNew code (genUid st.used ("schema_" ++ generateHash code))

/-- Kind of the parent position of a node, as needed to know whether the
node is an ascent fixpoint of `getOutermostCall`: `callP` when the parent is
a call, `memberP gp` when the parent is a member access whose own parent is
a call exactly when `gp`, `otherP` for all remaining positions. -/
inductive PK where
  | callP
  | memberP (gp : Bool)
  | otherP
deriving DecidableEq, Repr

/-- Whether a node in parent position `pk` is an ascent fixpoint of
`getOutermostCall` (no upward step applies from it). -/
def fixOf : PK → Bool
  | .memberP true => false
  | _ => true

/-- Parent-is-a-call information handed to the children of a member access. -/
def childGp : PK → Bool
  | .callP => true
  | _ => false

mutual
/-- Driver of the pass.  Babel pre-order: the visitor body effectively runs
at every call node that is an ascent fixpoint of `getOutermostCall` and is
rooted at `z` (every other zod call is routed by `getOutermostCall` either to
such a node, skipped as already processed, or to a non-zod call, skipped by
`isGlobalZodReference`).  A skipped site is left in place and its children
are traversed with `nested` set (the site itself is a zod call ancestor); an
accepted site is replaced by the generated identifier and, for a fresh
canonical form, its (clone of the) node is queued for hoisting. -/
def visitExpr (ctx : Ctx) (pk : PK) (e : Expr) (st : PassSt) : Expr × PassSt :=
  match e with
  | .ident n => (.ident n, st)
  | .thisE => (.thisE, st)
  | .lit s => (.lit s, st)
  | .member o p c =>
    let r1 := visitExpr ctx (.memberP (childGp pk)) o st
    let r2 := visitExpr ctx (.memberP (childGp pk)) p r1.2
    (.member r1.1 r2.1 c, r2.2)
  | .objE ps =>
    let r := visitProps ctx ps st
    (.objE r.1, r.2)
  | .arrow ps b =>
    let ctx' : Ctx := ⟨(ps.map (fun p => (p, BindKind.paramB))) :: ctx.locals,
      ctx.prog, ctx.nested, true⟩
    let r := visitExpr ctx' .otherP b st
    (.arrow ps r.1, r.2)
  | .call f a =>
    if isZodCall (.call f a) && fixOf pk then
      match decideOutcome ctx (.call f a) st with
      | .acceptDup code n =>
        (.ident n,
          ⟨st.codeMap, st.queue, st.used,
            st.log ++ [⟨.call f a, zShadowed ctx, .acceptDup code n⟩]⟩)
      | .acceptNew code n =>
        (.ident n,
          ⟨(code, n) :: st.codeMap, st.queue ++ [(n, .call f a)], n :: st.used,
            st.log ++ [⟨.call f a, zShadowed ctx, .acceptNew code n⟩]⟩)
      | o =>
        let st0 : PassSt :=
          ⟨st.codeMap, st.queue, st.used, st.log ++ [⟨.call f a, zShadowed ctx, o⟩]⟩
        let ctx' : Ctx := ⟨ctx.locals, ctx.prog, true, ctx.inFn⟩
        let r1 := visitExpr ctx' .callP f st0
        let r2 := visitArgs ctx' a r1.2
        (.call r1.1 r2.1, r2.2)
    else
      let ctx' : Ctx := ⟨ctx.locals, ctx.prog, ctx.nested || isZodCall (.call f a), ctx.inFn⟩
      let r1 := visitExpr ctx' .callP f st
      let r2 := visitArgs ctx' a r1.2
      (.call r1.1 r2.1, r2.2)

def visitArgs (ctx : Ctx) (a : ExprList) (st : PassSt) : ExprList × PassSt :=
  match a with
  | .nil => (.nil, st)
  | .cons h t =>
    let r1 := visitExpr ctx .callP h st
    let r2 := visitArgs ctx t r1.2
    (.cons r1.1 r2.1, r2.2)

def visitProps (ctx : Ctx) (ps : PropList) (st : PassSt) : PropList × PassSt :=
  match ps with
  | .nil => (.nil, st)
  | .cons k c v t =>
    let r1 := visitExpr ctx .otherP k st
    let r2 := visitExpr ctx .otherP v r1.2
    let r3 := visitProps ctx t r2.2
    (.cons r1.1 c r2.1 r3.1, r3.2)
end

mutual
/-- Statement traversal of the pass.  Entering a function declaration pushes
its scope (parameters plus the bindings its body declares) and records the
function parent. -/
def visitStmt (ctx : Ctx) (s : Stmt) (st : PassSt) : Stmt × PassSt :=
  match s with
  | .importD ns => (.importD ns, st)
  | .varD n i =>
    let r := visitExpr ctx .otherP i st
    (.varD n r.1, r.2)
  | .funcD n ps b =>
    let ctx' : Ctx := ⟨(ps.map (fun p => (p, BindKind.paramB)) ++ collectBinds b) :: ctx.locals,
      ctx.prog, ctx.nested, true⟩
    let r := visitStmts ctx' b st
    (.funcD n ps r.1, r.2)
  | .ret e =>
    let r := visitExpr ctx .otherP e st
    (.ret r.1, r.2)
  | .exprS e =>
    let r := visitExpr ctx .otherP e st
    (.exprS r.1, r.2)

def visitStmts (ctx : Ctx) (ss : StmtList) (st : PassSt) : StmtList × PassSt :=
  match ss with
  | .nil => (.nil, st)
  | .cons s t =>
    let r1 := visitStmt ctx s st
    let r2 := visitStmts ctx t r1.2
    (.cons r1.1 r2.1, r2.2)
end

/-- Top-level context of a program: no enclosing scopes, the program scope
collecting all top-level bindings, not nested, no function parent. -/
def topCtx (p : StmtList) : Ctx :=
  ⟨[], collectBinds p, false, false⟩

/-- Initial pass state: empty registry and queue, the used-name pool seeded
with every name occurring in the program. -/
def initSt (p : StmtList) : PassSt :=
  ⟨[], [], stmtListNames p, []⟩

/-- Traversal part of the `Program` visitor. -/
def runPassSt (p : StmtList) : StmtList × PassSt :=
  visitStmts (topCtx p) p (initSt p)

/-- Queued hoisted entries turned into top-level `const` declarations. -/
def declsOf : List (String × Expr) → StmtList
  | [] => .nil
  | (n, e) :: t => .cons (.varD n e) (declsOf t)

/-- The whole pass (`Program` visitor): traverse, then `unshiftContainer`
prepends one `const` declaration per hoisted entry, in discovery order,
before every pre-existing top-level statement. -/
def runPass (p : StmtList) : StmtList :=
  StmtList.append (declsOf (runPassSt p).2.queue) (runPassSt p).1

/-- Unfolding of `getOutermostCall` when no ascent step applies. -/
theorem getOutermostCall_of_stepPat_false (e : Expr) (fs : List Frame)
    (h : stepPat fs = false) : getOutermostCall e fs = (e, fs) := by
  match fs with
  | [] => rfl
  | [f] => rfl
  | f1 :: f2 :: t =>
    rw [getOutermostCall]
    simp only [stepPat] at h
    simp [h]

/-- Unfolding of `getOutermostCall` when the ascent step applies. -/
theorem getOutermostCall_step (e : Expr) (f1 f2 : Frame) (fs : List Frame)
    (h1 : f1.isMember = true) (h2 : f2.isCall = true) :
    getOutermostCall e (f1 :: f2 :: fs) =
      getOutermostCall (f2.rebuild (f1.rebuild e)) fs := by
  rw [getOutermostCall]
  simp [h1, h2]

/-- The result of `getOutermostCall` is an ascent fixpoint: no further step
applies at the returned position. -/
theorem stepPat_getOutermostCall (fs : List Frame) :
    ∀ e, stepPat (getOutermostCall e fs).2 = false := by
  match fs with
  | [] => intro e; rfl
  | [f] => intro e; rfl
  | f1 :: f2 :: t =>
    intro e
    rw [getOutermostCall]
    by_cases h : (f1.isMember && f2.isCall) = true
    · simp only [h, if_pos rfl]
      exact stepPat_getOutermostCall t _
    · rw [Bool.not_eq_true] at h
      simp only [h, if_neg Bool.false_ne_true]
      simpa [stepPat] using h

/-- C7 (counterexample): the claim states that a call appearing in computed
member-access property position does not cause a further upward step; but on
the concrete input `f()` sitting as the computed property of a member access
whose parent is a call (the source tree `a[f()]()`), `getOutermostCall`
does step upward, so the claim as stated is false. -/
theorem getOutermostCall_steps_from_computed_prop :
    getOutermostCall (.call (.ident "f") .nil)
        [Frame.memberProp (.ident "a"), Frame.calleeOf .nil] ≠
      (.call (.ident "f") .nil,
        [Frame.memberProp (.ident "a"), Frame.calleeOf .nil]) := by
  decide

/-- C7 (amended): `getOutermostCall` walks upward exactly through the
pattern "the parent is a member access — with the call in either object or
computed-property position — whose own parent is a call, in any position";
a call not wrapped in that pattern is returned unchanged, and the returned
call is the highest such call (no further step applies at the result). -/
theorem getOutermostCall_characterization :
    (∀ e fs, stepPat fs = false → getOutermostCall e fs = (e, fs)) ∧
    (∀ e f1 f2 fs, f1.isMember = true → f2.isCall = true →
      getOutermostCall e (f1 :: f2 :: fs) =
        getOutermostCall (f2.rebuild (f1.rebuild e)) fs) ∧
    (∀ e fs, stepPat (getOutermostCall e fs).2 = false) :=
  ⟨getOutermostCall_of_stepPat_false,
   getOutermostCall_step,
   fun e fs => stepPat_getOutermostCall fs e⟩

/-- Witness for `getOutermostCall_characterization` at concrete inputs. -/
theorem getOutermostCall_characterization_witness :
    getOutermostCall (.call (.ident "f") .nil) [Frame.otherF] =
        (.call (.ident "f") .nil, [Frame.otherF]) ∧
      getOutermostCall (.call (.ident "f") .nil)
          [Frame.memberObj (.ident "m") false, Frame.calleeOf .nil] =
        getOutermostCall ((Frame.calleeOf .nil).rebuild
          ((Frame.memberObj (.ident "m") false).rebuild (.call (.ident "f") .nil))) [] :=
  ⟨getOutermostCall_characterization.1 _ _ (by decide),
   getOutermostCall_characterization.2.1 _ _ _ _ (by decide) (by decide)⟩

/-- The `Identifier` handler is inert once the sub-traversal has stopped. -/
theorem identStep_stopped (inner : List ScopeB) (ctx : Ctx) (n : String)
    (st : SSt) (h : st.stopped = true) : identStep inner ctx n st = st := by
  simp [identStep, h]

/-- The parameter fold is inert once the sub-traversal has stopped. -/
theorem foldl_identStep_stopped (inner : List ScopeB) (ctx : Ctx) :
    ∀ (ps : List String) (st : SSt), st.stopped = true →
      ps.foldl (fun s p => identStep inner ctx p s) st = st := by
  intro ps
  induction ps with
  | nil => intro st _; rfl
  | cons p t ih =>
    intro st h
    simp only [List.foldl_cons, identStep_stopped inner ctx p st h]
    exact ih st h

mutual
/-- The safety sub-traversal is inert once `stop()` has been called. -/
theorem safeE_stopped (ctx : Ctx) (inner : List ScopeB) (e : Expr) :
    ∀ st : SSt, st.stopped = true → safeE ctx inner e st = st := by
  cases e with
  | ident n => intro st h; exact identStep_stopped inner ctx n st h
  | thisE => intro st h; simp [safeE, thisStep, h]
  | lit s => intro st _; rfl
  | member o p c =>
    intro st h
    rw [safeE, safeE_stopped ctx inner o st h]
    cases c with
    | false => simp
    | true => simpa using safeE_stopped ctx inner p st h
  | call f a =>
    intro st h
    rw [safeE, safeE_stopped ctx inner f st h]
    exact safeArgs_stopped ctx inner a st h
  | objE ps =>
    intro st h
    rw [safeE]
    exact safeProps_stopped ctx inner ps st h
  | arrow ps b =>
    intro st h
    rw [safeE]
    simp only [foldl_identStep_stopped _ ctx ps st h]
    exact safeE_stopped _ _ b st h

theorem safeArgs_stopped (ctx : Ctx) (inner : List ScopeB) (a : ExprList) :
    ∀ st : SSt, st.stopped = true → safeArgs ctx inner a st = st := by
  cases a with
  | nil => intro st _; rfl
  | cons h t =>
    intro st hs
    rw [safeArgs, safeE_stopped ctx inner h st hs]
    exact safeArgs_stopped ctx inner t st hs

theorem safeProps_stopped (ctx : Ctx) (inner : List ScopeB) (ps : PropList) :
    ∀ st : SSt, st.stopped = true → safeProps ctx inner ps st = st := by
  cases ps with
  | nil => intro st _; rfl
  | cons k c v t =>
    intro st hs
    rw [safeProps]
    cases c with
    | false =>
      simp only [if_neg Bool.false_ne_true]
      rw [safeE_stopped ctx inner v st hs]
      exact safeProps_stopped ctx inner t st hs
    | true =>
      simp only [if_true, safeE_stopped ctx inner k st hs]
      rw [safeE_stopped ctx inner v st hs]
      exact safeProps_stopped ctx inner t st hs
end

/-- The `Identifier` handler never resurrects a cleared `canHoist`. -/
theorem identStep_sticky (inner : List ScopeB) (ctx : Ctx) (n : String)
    (st : SSt) (h : st.canHoist = false) :
    (identStep inner ctx n st).canHoist = false := by
  unfold identStep
  split_ifs with h1 h2
  · exact h
  · exact h
  · by_cases hc : (classify inner ctx n).isReject = true <;> simp [hc, h]

/-- The `ThisExpression` handler never resurrects a cleared `canHoist`. -/
theorem thisStep_sticky (st : SSt) (h : st.canHoist = false) :
    (thisStep st).canHoist = false := by
  unfold thisStep
  split_ifs <;> simp_all

/-- The parameter fold never resurrects a cleared `canHoist`. -/
theorem foldl_identStep_sticky (inner : List ScopeB) (ctx : Ctx) :
    ∀ (ps : List String) (st : SSt), st.canHoist = false →
      (ps.foldl (fun s p => identStep inner ctx p s) st).canHoist = false := by
  intro ps
  induction ps with
  | nil => intro st h; exact h
  | cons p t ih =>
    intro st h
    exact ih _ (identStep_sticky inner ctx p st h)

mutual
/-- The safety sub-traversal never resurrects a cleared `canHoist`. -/
theorem safeE_sticky (ctx : Ctx) (inner : List ScopeB) (e : Expr) :
    ∀ st : SSt, st.canHoist = false → (safeE ctx inner e st).canHoist = false := by
  cases e with
  | ident n => intro st h; exact identStep_sticky inner ctx n st h
  | thisE => intro st h; exact thisStep_sticky st h
  | lit s => intro st h; exact h
  | member o p c =>
    intro st h
    rw [safeE]
    have h1 := safeE_sticky ctx inner o st h
    cases c with
    | false => simpa using h1
    | true => simpa using safeE_sticky ctx inner p _ h1
  | call f a =>
    intro st h
    rw [safeE]
    exact safeArgs_sticky ctx inner a _ (safeE_sticky ctx inner f st h)
  | objE ps =>
    intro st h
    rw [safeE]
    exact safeProps_sticky ctx inner ps st h
  | arrow ps b =>
    intro st h
    rw [safeE]
    exact safeE_sticky _ _ b _ (foldl_identStep_sticky _ ctx ps st h)

theorem safeArgs_sticky (ctx : Ctx) (inner : List ScopeB) (a : ExprList) :
    ∀ st : SSt, st.canHoist = false → (safeArgs ctx inner a st).canHoist = false := by
  cases a with
  | nil => intro st h; exact h
  | cons h t =>
    intro st hs
    rw [safeArgs]
    exact safeArgs_sticky ctx inner t _ (safeE_sticky ctx inner h st hs)

theorem safeProps_sticky (ctx : Ctx) (inner : List ScopeB) (ps : PropList) :
    ∀ st : SSt, st.canHoist = false → (safeProps ctx inner ps st).canHoist = false := by
  cases ps with
  | nil => intro st h; exact h
  | cons k c v t =>
    intro st hs
    rw [safeProps]
    cases c with
    | false =>
      simp only [if_neg Bool.false_ne_true]
      exact safeProps_sticky ctx inner t _ (safeE_sticky ctx inner v st hs)
    | true =>
      simp only [if_true]
      exact safeProps_sticky ctx inner t _
        (safeE_sticky ctx inner v _ (safeE_sticky ctx inner k st hs))
end

/-- The handlers preserve "stopped implies not hoistable". -/
theorem identStep_stopInv (inner : List ScopeB) (ctx : Ctx) (n : String)
    (st : SSt) (h : st.stopped = true → st.canHoist = false) :
    (identStep inner ctx n st).stopped = true →
      (identStep inner ctx n st).canHoist = false := by
  unfold identStep
  split_ifs with h1 h2
  · exact h
  · exact h
  · by_cases hc : (classify inner ctx n).isReject = true <;> simp [hc, h1]

/-- The `this` handler preserves "stopped implies not hoistable". -/
theorem thisStep_stopInv (st : SSt) (h : st.stopped = true → st.canHoist = false) :
    (thisStep st).stopped = true → (thisStep st).canHoist = false := by
  unfold thisStep
  split_ifs <;> simp_all

/-- The parameter fold preserves "stopped implies not hoistable". -/
theorem foldl_identStep_stopInv (inner : List ScopeB) (ctx : Ctx) :
    ∀ (ps : List String) (st : SSt), (st.stopped = true → st.canHoist = false) →
      (ps.foldl (fun s p => identStep inner ctx p s) st).stopped = true →
      (ps.foldl (fun s p => identStep inner ctx p s) st).canHoist = false := by
  intro ps
  induction ps with
  | nil => intro st h; exact h
  | cons p t ih =>
    intro st h
    exact ih _ (identStep_stopInv inner ctx p st h)

mutual
/-- The safety sub-traversal preserves "stopped implies not hoistable". -/
theorem safeE_stopInv (ctx : Ctx) (inner : List ScopeB) (e : Expr) :
    ∀ st : SSt, (st.stopped = true → st.canHoist = false) →
      (safeE ctx inner e st).stopped = true → (safeE ctx inner e st).canHoist = false := by
  cases e with
  | ident n => intro st h; exact identStep_stopInv inner ctx n st h
  | thisE => intro st h; exact thisStep_stopInv st h
  | lit s => intro st h; exact h
  | member o p c =>
    intro st h
    rw [safeE]
    have h1 := safeE_stopInv ctx inner o st h
    cases c with
    | false => simpa using h1
    | true => simpa using safeE_stopInv ctx inner p _ h1
  | call f a =>
    intro st h
    rw [safeE]
    exact safeArgs_stopInv ctx inner a _ (safeE_stopInv ctx inner f st h)
  | objE ps =>
    intro st h
    rw [safeE]
    exact safeProps_stopInv ctx inner ps st h
  | arrow ps b =>
    intro st h
    rw [safeE]
    exact safeE_stopInv _ _ b _ (foldl_identStep_stopInv _ ctx ps st h)

theorem safeArgs_stopInv (ctx : Ctx) (inner : List ScopeB) (a : ExprList) :
    ∀ st : SSt, (st.stopped = true → st.canHoist = false) →
      (safeArgs ctx inner a st).stopped = true → (safeArgs ctx inner a st).canHoist = false := by
  cases a with
  | nil => intro st h; exact h
  | cons h t =>
    intro st hs
    rw [safeArgs]
    exact safeArgs_stopInv ctx inner t _ (safeE_stopInv ctx inner h st hs)

theorem safeProps_stopInv (ctx : Ctx) (inner : List ScopeB) (ps : PropList) :
    ∀ st : SSt, (st.stopped = true → st.canHoist = false) →
      (safeProps ctx inner ps st).stopped = true → (safeProps ctx inner ps st).canHoist = false := by
  cases ps with
  | nil => intro st h; exact h
  | cons k c v t =>
    intro st hs
    rw [safeProps]
    cases c with
    | false =>
      simp only [if_neg Bool.false_ne_true]
      exact safeProps_stopInv ctx inner t _ (safeE_stopInv ctx inner v st hs)
    | true =>
      simp only [if_true]
      exact safeProps_stopInv ctx inner t _
        (safeE_stopInv ctx inner v _ (safeE_stopInv ctx inner k st hs))
end

mutual
/-- Any `this` use in the visited region clears `canHoist`. -/
theorem safeE_this (ctx : Ctx) (inner : List ScopeB) (e : Expr) :
    ∀ st : SSt, (st.stopped = true → st.canHoist = false) →
      containsThis e = true → (safeE ctx inner e st).canHoist = false := by
  cases e with
  | ident n => intro st hinv hc; simp [containsThis] at hc
  | thisE =>
    intro st hinv hc
    show (thisStep st).canHoist = false
    unfold thisStep
    by_cases h1 : st.stopped = true
    · simp [h1, hinv h1]
    · simp [h1]
  | lit s => intro st hinv hc; simp [containsThis] at hc
  | member o p c =>
    intro st hinv hc
    rw [containsThis] at hc
    rw [safeE]
    rcases Bool.or_eq_true_iff.mp hc with h | h
    · have h1 := safeE_this ctx inner o st hinv h
      cases c with
      | false => simpa using h1
      | true => simpa using safeE_sticky ctx inner p _ h1
    · obtain ⟨hc1, hc2⟩ := Bool.and_eq_true_iff.mp h
      subst hc1
      simpa using safeE_this ctx inner p _ (safeE_stopInv ctx inner o st hinv) hc2
  | call f a =>
    intro st hinv hc
    rw [containsThis] at hc
    rw [safeE]
    rcases Bool.or_eq_true_iff.mp hc with h | h
    · exact safeArgs_sticky ctx inner a _ (safeE_this ctx inner f st hinv h)
    · exact safeArgs_this ctx inner a _ (safeE_stopInv ctx inner f st hinv) h
  | objE ps =>
    intro st hinv hc
    rw [containsThis] at hc
    rw [safeE]
    exact safeProps_this ctx inner ps st hinv hc
  | arrow ps b =>
    intro st hinv hc
    rw [containsThis] at hc
    rw [safeE]
    exact safeE_this _ _ b _ (foldl_identStep_stopInv _ ctx ps st hinv) hc

theorem safeArgs_this (ctx : Ctx) (inner : List ScopeB) (a : ExprList) :
    ∀ st : SSt, (st.stopped = true → st.canHoist = false) →
      containsThisArgs a = true → (safeArgs ctx inner a st).canHoist = false := by
  cases a with
  | nil => intro st hinv hc; simp [containsThisArgs] at hc
  | cons h t =>
    intro st hinv hc
    rw [containsThisArgs] at hc
    rw [safeArgs]
    rcases Bool.or_eq_true_iff.mp hc with h1 | h1
    · exact safeArgs_sticky ctx inner t _ (safeE_this ctx inner h st hinv h1)
    · exact safeArgs_this ctx inner t _ (safeE_stopInv ctx inner h st hinv) h1

theorem safeProps_this (ctx : Ctx) (inner : List ScopeB) (ps : PropList) :
    ∀ st : SSt, (st.stopped = true → st.canHoist = false) →
      containsThisProps ps = true → (safeProps ctx inner ps st).canHoist = false := by
  cases ps with
  | nil => intro st hinv hc; simp [containsThisProps] at hc
  | cons k c v t =>
    intro st hinv hc
    rw [containsThisProps] at hc
    rw [safeProps]
    rcases Bool.or_eq_true_iff.mp hc with h1 | h1
    · rcases Bool.or_eq_true_iff.mp h1 with h2 | h2
      · obtain ⟨hc1, hc2⟩ := Bool.and_eq_true_iff.mp h2
        subst hc1
        simp only [if_true]
        exact safeProps_sticky ctx inner t _
          (safeE_sticky ctx inner v _ (safeE_this ctx inner k st hinv hc2))
      · cases c with
        | false =>
          simp only [if_neg Bool.false_ne_true]
          exact safeProps_sticky ctx inner t _ (safeE_this ctx inner v st hinv h2)
        | true =>
          simp only [if_true]
          exact safeProps_sticky ctx inner t _
            (safeE_this ctx inner v _ (safeE_stopInv ctx inner k st hinv) h2)
    · cases c with
      | false =>
        simp only [if_neg Bool.false_ne_true]
        exact safeProps_this ctx inner t _ (safeE_stopInv ctx inner v st hinv) h1
      | true =>
        simp only [if_true]
        exact safeProps_this ctx inner t _
          (safeE_stopInv ctx inner v _ (safeE_stopInv ctx inner k st hinv)) h1
end

/-- Whether a trace contains a rejecting identifier classification. -/
def hasReject (l : List SEvent) : Bool :=
  l.any fun ev =>
    match ev with
    | .classified _ c => c.isReject
    | .thisRejected => false

/-- Value of `hasReject` on a one-event extension of a trace. -/
theorem hasReject_append (evs : List SEvent) (ev : SEvent) :
    hasReject (evs ++ [ev]) =
      (hasReject evs ||
        (match ev with | .classified _ c => c.isReject | .thisRejected => false)) := by
  simp [hasReject]

/-- Appending one event to a reject-free well-formed trace keeps
`noEventAfterReject`. -/
theorem noEventAfterReject_append :
    ∀ (evs : List SEvent) (ev : SEvent), noEventAfterReject evs = true →
      hasReject evs = false → noEventAfterReject (evs ++ [ev]) = true := by
  intro evs
  induction evs with
  | nil =>
    intro ev _ _
    cases ev with
    | classified n c =>
      show noEventAfterReject [SEvent.classified n c] = true
      rw [noEventAfterReject]
      cases hc : c.isReject <;> simp [noEventAfterReject]
    | thisRejected =>
      show noEventAfterReject [SEvent.thisRejected] = true
      rw [noEventAfterReject]
      rfl
  | cons e t ih =>
    intro ev h1 h2
    cases e with
    | classified n c =>
      have hcr : c.isReject = false := by
        by_contra hx
        rw [Bool.not_eq_false] at hx
        simp [hasReject, hx] at h2
      rw [noEventAfterReject, hcr] at h1
      simp only [Bool.false_eq_true, if_false] at h1
      have h2' : hasReject t = false := by
        simp [hasReject, hcr] at h2 ⊢
        exact h2
      rw [List.cons_append, noEventAfterReject, hcr]
      simpa using ih ev h1 h2'
    | thisRejected =>
      rw [noEventAfterReject] at h1
      have h2' : hasReject t = false := by simpa [hasReject] using h2
      rw [List.cons_append, noEventAfterReject]
      exact ih ev h1 h2'

/-- Trace well-formedness threaded through the safety sub-traversal: the
trace so far satisfies `noEventAfterReject`, and if it already contains a
rejecting classification then the traversal has stopped. -/
def SInv (st : SSt) : Prop :=
  noEventAfterReject st.events = true ∧ (hasReject st.events = true → st.stopped = true)

/-- The `Identifier` handler preserves trace well-formedness. -/
theorem identStep_SInv (inner : List ScopeB) (ctx : Ctx) (n : String)
    (st : SSt) (h : SInv st) : SInv (identStep inner ctx n st) := by
  obtain ⟨h1, h2⟩ := h
  unfold identStep
  split_ifs with hs hz
  · exact ⟨h1, h2⟩
  · exact ⟨h1, h2⟩
  · have hfr : hasReject st.events = false := by
      by_contra hx
      rw [Bool.not_eq_false] at hx
      exact hs (h2 hx)
    by_cases hc : (classify inner ctx n).isReject = true
    · simp only [hc, if_true]
      refine ⟨noEventAfterReject_append _ _ h1 hfr, fun _ => rfl⟩
    · rw [Bool.not_eq_true] at hc
      simp only [hc, Bool.false_eq_true, if_false]
      refine ⟨noEventAfterReject_append _ _ h1 hfr, fun hx => ?_⟩
      exfalso
      dsimp only at hx
      rw [hasReject_append, hfr] at hx
      simp [hc] at hx

/-- The `this` handler preserves trace well-formedness. -/
theorem thisStep_SInv (st : SSt) (h : SInv st) : SInv (thisStep st) := by
  obtain ⟨h1, h2⟩ := h
  unfold thisStep
  split_ifs with hs
  · exact ⟨h1, h2⟩
  · have hfr : hasReject st.events = false := by
      by_contra hx
      rw [Bool.not_eq_false] at hx
      exact hs (h2 hx)
    refine ⟨noEventAfterReject_append _ _ h1 hfr, fun hx => ?_⟩
    exfalso
    dsimp only at hx
    rw [hasReject_append, hfr] at hx
    simp at hx

/-- The parameter fold preserves trace well-formedness. -/
theorem foldl_identStep_SInv (inner : List ScopeB) (ctx : Ctx) :
    ∀ (ps : List String) (st : SSt), SInv st →
      SInv (ps.foldl (fun s p => identStep inner ctx p s) st) := by
  intro ps
  induction ps with
  | nil => intro st h; exact h
  | cons p t ih => intro st h; exact ih _ (identStep_SInv inner ctx p st h)

mutual
/-- The safety sub-traversal preserves trace well-formedness. -/
theorem safeE_SInv (ctx : Ctx) (inner : List ScopeB) (e : Expr) :
    ∀ st : SSt, SInv st → SInv (safeE ctx inner e st) := by
  cases e with
  | ident n => intro st h; exact identStep_SInv inner ctx n st h
  | thisE => intro st h; exact thisStep_SInv st h
  | lit s => intro st h; exact h
  | member o p c =>
    intro st h
    rw [safeE]
    have h1 := safeE_SInv ctx inner o st h
    cases c with
    | false => simpa using h1
    | true => simpa using safeE_SInv ctx inner p _ h1
  | call f a =>
    intro st h
    rw [safeE]
    exact safeArgs_SInv ctx inner a _ (safeE_SInv ctx inner f st h)
  | objE ps =>
    intro st h
    rw [safeE]
    exact safeProps_SInv ctx inner ps st h
  | arrow ps b =>
    intro st h
    rw [safeE]
    exact safeE_SInv _ _ b _ (foldl_identStep_SInv _ ctx ps st h)

theorem safeArgs_SInv (ctx : Ctx) (inner : List ScopeB) (a : ExprList) :
    ∀ st : SSt, SInv st → SInv (safeArgs ctx inner a st) := by
  cases a with
  | nil => intro st h; exact h
  | cons h t =>
    intro st hs
    rw [safeArgs]
    exact safeArgs_SInv ctx inner t _ (safeE_SInv ctx inner h st hs)

theorem safeProps_SInv (ctx : Ctx) (inner : List ScopeB) (ps : PropList) :
    ∀ st : SSt, SInv st → SInv (safeProps ctx inner ps st) := by
  cases ps with
  | nil => intro st h; exact h
  | cons k c v t =>
    intro st hs
    rw [safeProps]
    cases c with
    | false =>
      simp only [if_neg Bool.false_ne_true]
      exact safeProps_SInv ctx inner t _ (safeE_SInv ctx inner v st hs)
    | true =>
      simp only [if_true]
      exact safeProps_SInv ctx inner t _
        (safeE_SInv ctx inner v _ (safeE_SInv ctx inner k st hs))
end

/-- C6 (counterexample): the claim additionally asserts that any
disqualifying reference short-circuits the remaining sub-traversal; but on
the candidate `z.string().refine(() => this.isValid).min(len)` (with `len`
a parameter of the enclosing function) the `this` use disqualifies first and
the source's `ThisExpression` handler does not call `stop()`, so the later
reference `len` is still classified — the claim as stated is false. -/
theorem safety_shortCircuit_claim_false :
    ¬ (∀ (ctx : Ctx) (e : Expr),
        (containsThis e = true → canSafelyHoist ctx e = false) ∧
          noClassAfterDisq (runSafety ctx e).events = true) := by
  intro h
  have h2 := (h ⟨[[("len", BindKind.paramB)]], [], false, true⟩
    (.call (.member (.call (.member (.call (.member (.ident "z") (.ident "string") false) .nil)
        (.ident "refine") false)
        (.cons (.arrow [] (.member .thisE (.ident "isValid") false)) .nil))
      (.ident "min") false) (.cons (.ident "len") .nil))).2
  revert h2
  decide

/-- C6 (amended): any use of `this` inside the candidate subtree makes the
hoist-safety analysis return unsafe; a disqualifying identifier
classification short-circuits the remaining sub-traversal (nothing further
is recorded after it), but a `this` rejection does not halt the traversal —
later references may still be classified, the decision being unsafe either
way. -/
theorem canSafelyHoist_this_unsafe_and_identReject_stops (ctx : Ctx) (e : Expr) :
    (containsThis e = true → canSafelyHoist ctx e = false) ∧
      noEventAfterReject (runSafety ctx e).events = true := by
  constructor
  · intro hc
    exact safeE_this ctx [] e ⟨true, false, []⟩ (by simp) hc
  · exact (safeE_SInv ctx [] e ⟨true, false, []⟩ ⟨rfl, by simp [hasReject]⟩).1

/-- Witness for `canSafelyHoist_this_unsafe_and_identReject_stops` at the
repository's own class-method test case. -/
theorem canSafelyHoist_this_unsafe_witness :
    containsThis (.call (.member (.call (.member (.ident "z") (.ident "string") false) .nil)
        (.ident "refine") false)
        (.cons (.arrow [] (.member .thisE (.ident "isValid") false)) .nil)) = true ∧
      canSafelyHoist ⟨[], [], false, true⟩
        (.call (.member (.call (.member (.ident "z") (.ident "string") false) .nil)
          (.ident "refine") false)
          (.cons (.arrow [] (.member .thisE (.ident "isValid") false)) .nil)) = false :=
  ⟨by decide,
   (canSafelyHoist_this_unsafe_and_identReject_stops ⟨[], [], false, true⟩ _).1 (by decide)⟩

/-- C10: an identifier reference that resolves to no binding at all — not in
the scopes opened inside the candidate, not in any enclosing non-program
scope, and not at program scope — is classified as a free global and never
disqualifies the candidate: the `Identifier` handler leaves both `canHoist`
and the stop flag untouched on it. -/
theorem free_reference_never_disqualifies (inner : List ScopeB) (ctx : Ctx)
    (n : String) (st : SSt)
    (h1 : lookupChain inner n = none) (h2 : lookupChain ctx.locals n = none)
    (h3 : lookupA ctx.prog n = none) :
    classify inner ctx n = SClass.acceptFree ∧
      (identStep inner ctx n st).canHoist = st.canHoist ∧
      (identStep inner ctx n st).stopped = st.stopped := by
  have hcl : classify inner ctx n = SClass.acceptFree := by
    unfold classify
    rw [h1, h2, h3]
  refine ⟨hcl, ?_, ?_⟩ <;>
  · unfold identStep
    split_ifs <;> simp [hcl, SClass.isReject]

/-- Witness for `free_reference_never_disqualifies` at a concrete undeclared
global reference. -/
theorem free_reference_never_disqualifies_witness :
    classify [] ⟨[], [], false, true⟩ "parseFloat" = SClass.acceptFree ∧
      (identStep [] ⟨[], [], false, true⟩ "parseFloat" ⟨true, false, []⟩).canHoist = true :=
  ⟨(free_reference_never_disqualifies [] ⟨[], [], false, true⟩ "parseFloat"
      ⟨true, false, []⟩ rfl rfl rfl).1,
   (free_reference_never_disqualifies [] ⟨[], [], false, true⟩ "parseFloat"
      ⟨true, false, []⟩ rfl rfl rfl).2.1⟩

/-- Pushing a scope preserves a successful lookup further out. -/
theorem lookupChain_cons_isSome (s : ScopeB) (ls : List ScopeB) (n : String)
    (h : (lookupChain ls n).isSome = true) :
    (lookupChain (s :: ls) n).isSome = true := by
  rw [lookupChain]
  cases hx : lookupA s n <;> simp [hx, h]

/-- Shadowing of `z` persists when entering a nested scope. -/
theorem zShadowed_push (ctx : Ctx) (s : ScopeB) (b fn : Bool)
    (h : zShadowed ctx = true) :
    zShadowed ⟨s :: ctx.locals, ctx.prog, b, fn⟩ = true :=
  lookupChain_cons_isSome s ctx.locals "z" h

/-- At a nested decision site the visitor body skips with `skipNested`. -/
theorem decideOutcome_nested (ctx : Ctx) (e : Expr) (st : PassSt)
    (h : ctx.nested = true) : decideOutcome ctx e st = .skipNested := by
  unfold decideOutcome
  rw [h]
  simp

/-- At a shadowed decision site the visitor body skips with `skipNested` or
`skipShadow`. -/
theorem decideOutcome_shadow (ctx : Ctx) (e : Expr) (st : PassSt)
    (h : zShadowed ctx = true) :
    decideOutcome ctx e st = .skipNested ∨ decideOutcome ctx e st = .skipShadow := by
  unfold decideOutcome
  by_cases hn : ctx.nested = true
  · rw [hn]; simp
  · rw [Bool.not_eq_true] at hn
    rw [hn, h]
    simp

mutual
/-- In a context that is nested inside another zod call or where `z` is
shadowed, the traversal changes nothing: the subtree is returned as is and
the registry, queue and name pool are untouched. -/
theorem visitExpr_inert (ctx : Ctx) (pk : PK) (e : Expr) :
    ∀ st : PassSt, (ctx.nested = true ∨ zShadowed ctx = true) →
      (visitExpr ctx pk e st).1 = e ∧ (visitExpr ctx pk e st).2.core = st.core := by
  cases e with
  | ident n => intro st _; exact ⟨rfl, rfl⟩
  | thisE => intro st _; exact ⟨rfl, rfl⟩
  | lit s => intro st _; exact ⟨rfl, rfl⟩
  | member o p c =>
    intro st h
    rw [visitExpr]
    obtain ⟨ho1, ho2⟩ := visitExpr_inert ctx (.memberP (childGp pk)) o st h
    obtain ⟨hp1, hp2⟩ :=
      visitExpr_inert ctx (.memberP (childGp pk)) p (visitExpr ctx (.memberP (childGp pk)) o st).2 h
    exact ⟨by rw [ho1, hp1], by rw [hp2, ho2]⟩
  | objE ps =>
    intro st h
    rw [visitExpr]
    obtain ⟨h1, h2⟩ := visitProps_inert ctx ps st h
    exact ⟨by rw [h1], h2⟩
  | arrow ps b =>
    intro st h
    rw [visitExpr]
    have h' : (⟨(ps.map fun p => (p, BindKind.paramB)) :: ctx.locals,
        ctx.prog, ctx.nested, true⟩ : Ctx).nested = true ∨
        zShadowed ⟨(ps.map fun p => (p, BindKind.paramB)) :: ctx.locals,
          ctx.prog, ctx.nested, true⟩ = true := by
      rcases h with hn | hs
      · exact Or.inl hn
      · exact Or.inr (zShadowed_push ctx _ ctx.nested true hs)
    obtain ⟨h1, h2⟩ := visitExpr_inert _ .otherP b st h'
    exact ⟨by rw [h1], h2⟩
  | call f a =>
    intro st h
    rw [visitExpr]
    by_cases hz : (isZodCall (.call f a) && fixOf pk) = true
    · rw [if_pos hz]
      have hskip : decideOutcome ctx (.call f a) st = .skipNested ∨
          decideOutcome ctx (.call f a) st = .skipShadow := by
        rcases h with hn | hs
        · exact Or.inl (decideOutcome_nested ctx _ st hn)
        · exact decideOutcome_shadow ctx _ st hs
      rcases hskip with hd | hd <;>
      · rw [hd]
        dsimp only
        refine ⟨?_, ?_⟩
        · rw [(visitExpr_inert ⟨ctx.locals, ctx.prog, true, ctx.inFn⟩ .callP f _ (Or.inl rfl)).1,
            (visitArgs_inert ⟨ctx.locals, ctx.prog, true, ctx.inFn⟩ a _ (Or.inl rfl)).1]
        · rw [(visitArgs_inert ⟨ctx.locals, ctx.prog, true, ctx.inFn⟩ a _ (Or.inl rfl)).2,
            (visitExpr_inert ⟨ctx.locals, ctx.prog, true, ctx.inFn⟩ .callP f _ (Or.inl rfl)).2]
          rfl
    · rw [if_neg hz]
      dsimp only
      have h' : (⟨ctx.locals, ctx.prog, ctx.nested || isZodCall (.call f a), ctx.inFn⟩ : Ctx).nested = true ∨
          zShadowed ⟨ctx.locals, ctx.prog, ctx.nested || isZodCall (.call f a), ctx.inFn⟩ = true := by
        rcases h with hn | hs
        · exact Or.inl (by simp [hn])
        · exact Or.inr hs
      refine ⟨?_, ?_⟩
      · rw [(visitExpr_inert ⟨ctx.locals, ctx.prog, ctx.nested || isZodCall (.call f a), ctx.inFn⟩
            .callP f _ h').1,
          (visitArgs_inert ⟨ctx.locals, ctx.prog, ctx.nested || isZodCall (.call f a), ctx.inFn⟩
            a _ h').1]
      · rw [(visitArgs_inert ⟨ctx.locals, ctx.prog, ctx.nested || isZodCall (.call f a), ctx.inFn⟩
            a _ h').2,
          (visitExpr_inert ⟨ctx.locals, ctx.prog, ctx.nested || isZodCall (.call f a), ctx.inFn⟩
            .callP f _ h').2]

theorem visitArgs_inert (ctx : Ctx) (a : ExprList) :
    ∀ st : PassSt, (ctx.nested = true ∨ zShadowed ctx = true) →
      (visitArgs ctx a st).1 = a ∧ (visitArgs ctx a st).2.core = st.core := by
  cases a with
  | nil => intro st _; exact ⟨rfl, rfl⟩
  | cons h t =>
    intro st hi
    rw [visitArgs]
    obtain ⟨h1, h2⟩ := visitExpr_inert ctx .callP h st hi
    obtain ⟨h3, h4⟩ := visitArgs_inert ctx t (visitExpr ctx .callP h st).2 hi
    exact ⟨by rw [h1, h3], by rw [h4, h2]⟩

theorem visitProps_inert (ctx : Ctx) (ps : PropList) :
    ∀ st : PassSt, (ctx.nested = true ∨ zShadowed ctx = true) →
      (visitProps ctx ps st).1 = ps ∧ (visitProps ctx ps st).2.core = st.core := by
  cases ps with
  | nil => intro st _; exact ⟨rfl, rfl⟩
  | cons k c v t =>
    intro st hi
    rw [visitProps]
    obtain ⟨h1, h2⟩ := visitExpr_inert ctx .otherP k st hi
    obtain ⟨h3, h4⟩ := visitExpr_inert ctx .otherP v (visitExpr ctx .otherP k st).2 hi
    obtain ⟨h5, h6⟩ := visitProps_inert ctx t (visitExpr ctx .otherP v (visitExpr ctx .otherP k st).2).2 hi
    exact ⟨by rw [h1, h3, h5], by rw [h6, h4, h2]⟩
end

/-- A decision site whose outcome is any of the four skips is left exactly
in place, with registry, queue and name pool untouched. -/
theorem visitExpr_skip_call (ctx : Ctx) (pk : PK) (f : Expr) (a : ExprList) (st : PassSt)
    (hz : (isZodCall (.call f a) && fixOf pk) = true)
    (hd : decideOutcome ctx (.call f a) st = .skipNested ∨
      decideOutcome ctx (.call f a) st = .skipShadow ∨
      decideOutcome ctx (.call f a) st = .skipTop ∨
      decideOutcome ctx (.call f a) st = .skipUnsafe) :
    (visitExpr ctx pk (.call f a) st).1 = .call f a ∧
      (visitExpr ctx pk (.call f a) st).2.core = st.core := by
  rw [visitExpr, if_pos hz]
  rcases hd with hd | hd | hd | hd <;>
  · rw [hd]
    dsimp only
    refine ⟨?_, ?_⟩
    · rw [(visitExpr_inert ⟨ctx.locals, ctx.prog, true, ctx.inFn⟩ .callP f _ (Or.inl rfl)).1,
        (visitArgs_inert ⟨ctx.locals, ctx.prog, true, ctx.inFn⟩ a _ (Or.inl rfl)).1]
    · rw [(visitArgs_inert ⟨ctx.locals, ctx.prog, true, ctx.inFn⟩ a _ (Or.inl rfl)).2,
        (visitExpr_inert ⟨ctx.locals, ctx.prog, true, ctx.inFn⟩ .callP f _ (Or.inl rfl)).2]
      rfl

/-- C5: a call site whose namespace identifier `z` resolves to a binding in
a nested, non-program scope (it is shadowed by a parameter or local
declaration between the program root and the call site) is never hoisted:
the subtree at the site is returned unchanged and no hoisted entry is
queued anywhere below it. -/
theorem shadowed_call_site_never_hoisted (ctx : Ctx) (pk : PK) (e : Expr) (st : PassSt)
    (h : zShadowed ctx = true) :
    (visitExpr ctx pk e st).1 = e ∧ (visitExpr ctx pk e st).2.queue = st.queue := by
  have hi := visitExpr_inert ctx pk e st (Or.inr h)
  refine ⟨hi.1, ?_⟩
  have := hi.2
  unfold PassSt.core at this
  exact (Prod.ext_iff.mp (Prod.ext_iff.mp this).2).1

/-- Witness for `shadowed_call_site_never_hoisted` at the repository's
`function makeSchema(z) { return z.string(); }` test case. -/
theorem shadowed_call_site_never_hoisted_witness :
    zShadowed ⟨[[("z", BindKind.paramB)]], [], false, true⟩ = true ∧
      (visitExpr ⟨[[("z", BindKind.paramB)]], [], false, true⟩ .otherP
          (.call (.member (.ident "z") (.ident "string") false) .nil) ⟨[], [], [], []⟩).1 =
        .call (.member (.ident "z") (.ident "string") false) .nil :=
  ⟨by decide,
   (shadowed_call_site_never_hoisted ⟨[[("z", BindKind.paramB)]], [], false, true⟩ .otherP
      (.call (.member (.ident "z") (.ident "string") false) .nil) ⟨[], [], [], []⟩
      (by decide)).1⟩

/-- C8: a candidate the hoist-safety analysis rejects is left unmodified in
place — the subtree at the occurrence site in the output equals the input
subtree — and the registry, queue and name pool are untouched by it. -/
theorem unsafe_candidate_left_in_place (ctx : Ctx) (pk : PK) (f : Expr) (a : ExprList)
    (st : PassSt) (hzod : isZodCall (.call f a) = true) (hfix : fixOf pk = true)
    (hns : canSafelyHoist ctx (.call f a) = false) :
    (visitExpr ctx pk (.call f a) st).1 = .call f a ∧
      (visitExpr ctx pk (.call f a) st).2.core = st.core := by
  apply visitExpr_skip_call ctx pk f a st (by rw [hzod, hfix]; rfl)
  unfold decideOutcome
  by_cases h1 : ctx.nested = true
  · simp [h1]
  · rw [Bool.not_eq_true] at h1
    by_cases h2 : zShadowed ctx = true
    · simp [h1, h2]
    · rw [Bool.not_eq_true] at h2
      by_cases h3 : ctx.inFn = true
      · simp [h1, h2, h3, hns]
      · rw [Bool.not_eq_true] at h3
        simp [h1, h2, h3]

/-- Witness for `unsafe_candidate_left_in_place` at the repository's
`z.string().min(minLength)` test case (with `minLength` a parameter of the
enclosing function). -/
theorem unsafe_candidate_left_in_place_witness :
    canSafelyHoist ⟨[[("minLength", BindKind.paramB)]], [], false, true⟩
        (.call (.member (.call (.member (.ident "z") (.ident "string") false) .nil)
          (.ident "min") false) (.cons (.ident "minLength") .nil)) = false ∧
      (visitExpr ⟨[[("minLength", BindKind.paramB)]], [], false, true⟩ .otherP
          (.call (.member (.call (.member (.ident "z") (.ident "string") false) .nil)
            (.ident "min") false) (.cons (.ident "minLength") .nil)) ⟨[], [], [], []⟩).1 =
        .call (.member (.call (.member (.ident "z") (.ident "string") false) .nil)
          (.ident "min") false) (.cons (.ident "minLength") .nil) :=
  ⟨by decide,
   (unsafe_candidate_left_in_place ⟨[[("minLength", BindKind.paramB)]], [], false, true⟩ .otherP
      (.member (.call (.member (.ident "z") (.ident "string") false) .nil) (.ident "min") false)
      (.cons (.ident "minLength") .nil) ⟨[], [], [], []⟩
      (by decide) (by decide) (by decide)).1⟩

/-- C9: a zod-rooted chain whose outermost call has no enclosing function
scope between it and the program root (`getFunctionParent` finds none) is
never replaced and never queues a hoisted entry: the site is returned
unchanged with registry, queue and name pool untouched. -/
theorem top_level_chain_not_hoisted (ctx : Ctx) (pk : PK) (f : Expr) (a : ExprList)
    (st : PassSt) (hzod : isZodCall (.call f a) = true) (hfix : fixOf pk = true)
    (hfn : ctx.inFn = false) :
    (visitExpr ctx pk (.call f a) st).1 = .call f a ∧
      (visitExpr ctx pk (.call f a) st).2.queue = st.queue := by
  have hc : (visitExpr ctx pk (.call f a) st).1 = .call f a ∧
      (visitExpr ctx pk (.call f a) st).2.core = st.core := by
    apply visitExpr_skip_call ctx pk f a st (by rw [hzod, hfix]; rfl)
    unfold decideOutcome
    by_cases h1 : ctx.nested = true
    · simp [h1]
    · rw [Bool.not_eq_true] at h1
      by_cases h2 : zShadowed ctx = true
      · simp [h1, h2]
      · rw [Bool.not_eq_true] at h2
        simp [h1, h2, hfn]
  refine ⟨hc.1, ?_⟩
  have := hc.2
  unfold PassSt.core at this
  exact (Prod.ext_iff.mp (Prod.ext_iff.mp this).2).1

/-- Witness for `top_level_chain_not_hoisted` at the repository's
`const schema = z.object(...)` top-level test case. -/
theorem top_level_chain_not_hoisted_witness :
    isZodCall (.call (.member (.ident "z") (.ident "string") false) .nil) = true ∧
      (visitExpr ⟨[], [], false, false⟩ .otherP
          (.call (.member (.ident "z") (.ident "string") false) .nil) ⟨[], [], [], []⟩).1 =
        .call (.member (.ident "z") (.ident "string") false) .nil :=
  ⟨by decide,
   (top_level_chain_not_hoisted ⟨[], [], false, false⟩ .otherP
      (.member (.ident "z") (.ident "string") false) .nil ⟨[], [], [], []⟩
      (by decide) (by decide) (by decide)).1⟩

/-- C1 (code evaluated at the failing input): with a top-level
`const z = 0` and `function g() { return z.string().default(z) }`, the
argument-position reference `z` is an identifier reference inside the
candidate subtree that is not the chain-root occurrence, not a property
name and not an object key, and its binding is a program-scope variable
declaration (not an import clause) — yet `canSafelyHoist` skips every
identifier named `z` by name alone, classifies nothing, answers safe, and
the pass hoists the candidate above the `const z` declaration (reading `z`
in its temporal dead zone), contradicting the function's own documented
contract that program-scope const/let/var references must be rejected. -/
theorem namespace_named_argument_reference_not_classified :
    canSafelyHoist ⟨[[]], [("z", BindKind.varB), ("g", BindKind.funcB)], false, true⟩
        (.call (.member (.call (.member (.ident "z") (.ident "string") false) .nil)
          (.ident "default") false) (.cons (.ident "z") .nil)) = true ∧
      runPass (.cons (.varD "z" (.lit "0"))
          (.cons (.funcD "g" []
            (.cons (.ret (.call (.member (.call (.member (.ident "z") (.ident "string") false)
              .nil) (.ident "default") false) (.cons (.ident "z") .nil))) .nil)) .nil)) =
        .cons (.varD "_schema_z.string().default(z)"
            (.call (.member (.call (.member (.ident "z") (.ident "string") false) .nil)
              (.ident "default") false) (.cons (.ident "z") .nil)))
          (.cons (.varD "z" (.lit "0"))
            (.cons (.funcD "g" []
              (.cons (.ret (.ident "_schema_z.string().default(z)")) .nil)) .nil)) := by
  constructor
  · decide
  · decide

/-- Every member of a string list is bounded by `maxLen`. -/
theorem maxLen_ge (l : List String) : ∀ s ∈ l, s.length ≤ maxLen l := by
  induction l with
  | nil => simp
  | cons h t ih =>
    intro s hs
    rcases List.mem_cons.mp hs with rfl | hmem
    · exact le_max_left _ _
    · exact le_trans (ih s hmem) (le_max_right _ _)

/-- The generated name avoids every name in the pool. -/
theorem genUid_fresh (used : List String) (base : String) : genUid used base ∉ used := by
  unfold genUid
  split_ifs with h
  · intro hmem
    have hle := maxLen_ge used _ hmem
    rw [String.length_append, String.length_append] at hle
    have hrep : (String.mk (List.replicate (maxLen used + 1) '_')).length = maxLen used + 1 := by
      simp
    omega
  · exact h

/-- Lookup failure in the deduplication map means the key is absent. -/
theorem lookupCode_eq_none (m : List (String × String)) (c : String)
    (h : lookupCode m c = none) : c ∉ m.map Prod.fst := by
  induction m with
  | nil => simp
  | cons p t ih =>
    rw [lookupCode] at h
    by_cases hp : p.1 = c
    · rw [if_pos hp] at h
      exact absurd h (by simp)
    · rw [if_neg hp] at h
      simp only [List.map_cons, List.mem_cons]
      rintro (rfl | hmem)
      · exact hp rfl
      · exact ih h hmem

/-- Lookup success survives extending the map with a fresh key. -/
theorem lookupCode_cons_ne (m : List (String × String)) (c0 n0 c : String)
    (h : c0 ≠ c) : lookupCode ((c0, n0) :: m) c = lookupCode m c := by
  rw [lookupCode, if_neg h]

/-- A successful lookup exhibits its pair in the map. -/
theorem lookupCode_mem (m : List (String × String)) (c n : String)
    (h : lookupCode m c = some n) : n ∈ m.map Prod.snd := by
  induction m with
  | nil => exact absurd h (by rw [lookupCode]; simp)
  | cons p t ih =>
    rw [lookupCode] at h
    by_cases hp : p.1 = c
    · rw [if_pos hp] at h
      simp only [List.map_cons, List.mem_cons]
      exact Or.inl (Option.some_injective _ h).symm
    · rw [if_neg hp] at h
      simp only [List.map_cons, List.mem_cons]
      exact Or.inr (ih h)

/-- The accepted (code, name) pair of an outcome, when there is one. -/
def acceptedName : Outcome → Option (String × String)
  | .acceptDup c n => some (c, n)
  | .acceptNew c n => some (c, n)
  | _ => none

/-- The freshly generated name of an outcome, when there is one. -/
def newName : Outcome → Option String
  | .acceptNew _ n => some n
  | _ => none

/-- Inversion of the visitor decision for a reused entry. -/
theorem decideOutcome_eq_acceptDup (ctx : Ctx) (e : Expr) (st : PassSt)
    (code n : String) (h : decideOutcome ctx e st = .acceptDup code n) :
    code = printExpr e ∧ lookupCode st.codeMap (printExpr e) = some n := by
  unfold decideOutcome at h
  split_ifs at h
  cases hx : lookupCode st.codeMap (printExpr e) with
  | none =>
    simp only [hx] at h
    exact Outcome.noConfusion h
  | some m =>
    simp only [hx] at h
    injection h with h1 h2
    exact ⟨h1.symm, by rw [h2]⟩

/-- Inversion of the visitor decision for a fresh entry. -/
theorem decideOutcome_eq_acceptNew (ctx : Ctx) (e : Expr) (st : PassSt)
    (code n : String) (h : decideOutcome ctx e st = .acceptNew code n) :
    code = printExpr e ∧ lookupCode st.codeMap (printExpr e) = none ∧
      n = genUid st.used ("schema_" ++ generateHash (printExpr e)) := by
  unfold decideOutcome at h
  split_ifs at h
  cases hx : lookupCode st.codeMap (printExpr e) with
  | some m =>
    simp only [hx] at h
    exact Outcome.noConfusion h
  | none =>
    simp only [hx] at h
    injection h with h1 h2
    exact ⟨h1.symm, rfl, h2.symm⟩

/-- Invariant threaded through one pass, tying the deduplication map, the
hoist queue, the name pool and the decision log together. -/
structure PassInv (names0 : List String) (st : PassSt) : Prop where
  usedSup : ∀ n, n ∈ names0 → n ∈ st.used
  mapKeysNodup : (st.codeMap.map Prod.fst).Nodup
  queueMap : st.queue.map Prod.fst = (st.codeMap.map Prod.snd).reverse
  queueNodup : (st.queue.map Prod.fst).Nodup
  queueUsed : ∀ n, n ∈ st.queue.map Prod.fst → n ∈ st.used
  queueFresh : ∀ n, n ∈ st.queue.map Prod.fst → n ∉ names0
  queueZod : ∀ q, q ∈ st.queue → ∃ f a, q.2 = Expr.call f a ∧ isZodCall (Expr.call f a) = true
  logAcc : ∀ ev, ev ∈ st.log → ∀ c n, acceptedName ev.outcome = some (c, n) →
    lookupCode st.codeMap c = some n
  queueLog : st.queue.map Prod.fst = st.log.filterMap (fun ev => newName ev.outcome)

/-- The initial state of a pass satisfies the invariant. -/
theorem passInv_init (p : StmtList) : PassInv (stmtListNames p) (initSt p) := by
  refine ⟨fun n h => h, ?_, ?_, ?_, ?_, ?_, ?_, ?_, ?_⟩ <;> simp [initSt]

/-- Appending a skip or reuse event (no queue/map/pool change) preserves the
invariant. -/
theorem passInv_log_append (names0 : List String) (st : PassSt) (ev : DecEvent)
    (hinv : PassInv names0 st)
    (hev : ∀ c n, acceptedName ev.outcome = some (c, n) →
      lookupCode st.codeMap c = some n)
    (hnew : newName ev.outcome = none) :
    PassInv names0 ⟨st.codeMap, st.queue, st.used, st.log ++ [ev]⟩ := by
  obtain ⟨i1, i2, i3, i4, i5, i6, i7, i8, i9⟩ := hinv
  refine ⟨i1, i2, i3, i4, i5, i6, i7, ?_, ?_⟩
  · intro ev' hmem c n ha
    rcases List.mem_append.mp hmem with hm | hm
    · exact i8 ev' hm c n ha
    · rw [List.mem_singleton.mp hm] at ha
      exact hev c n ha
  · rw [List.filterMap_append]
    simp [hnew]
    exact i9

/-- Registering a fresh entry (new map key, queued clone, reserved name,
logged event) preserves the invariant. -/
theorem passInv_acceptNew (names0 : List String) (st : PassSt) (f : Expr) (a : ExprList)
    (sh : Bool) (code n : String)
    (hinv : PassInv names0 st)
    (hzod : isZodCall (.call f a) = true)
    (_hcode : code = printExpr (.call f a))
    (hlook : lookupCode st.codeMap code = none)
    (hn : n = genUid st.used ("schema_" ++ generateHash code)) :
    PassInv names0 ⟨(code, n) :: st.codeMap, st.queue ++ [(n, .call f a)], n :: st.used,
      st.log ++ [⟨.call f a, sh, .acceptNew code n⟩]⟩ := by
  obtain ⟨i1, i2, i3, i4, i5, i6, i7, i8, i9⟩ := hinv
  have hfresh : n ∉ st.used := by rw [hn]; exact genUid_fresh _ _
  refine ⟨?_, ?_, ?_, ?_, ?_, ?_, ?_, ?_, ?_⟩
  · intro m hm
    exact List.mem_cons_of_mem _ (i1 m hm)
  · simp only [List.map_cons]
    exact List.nodup_cons.mpr ⟨lookupCode_eq_none _ _ hlook, i2⟩
  · simp only [List.map_append, List.map_cons, List.map_nil, List.reverse_cons, i3]
  · simp only [List.map_append]
    rw [List.nodup_append]
    refine ⟨i4, List.nodup_singleton n, ?_⟩
    intro m hm hm'
    rw [List.mem_singleton.mp hm'] at hm
    exact hfresh (i5 n hm)
  · intro m hm
    simp only [List.map_append, List.mem_append, List.map_cons, List.map_nil,
      List.mem_singleton] at hm
    rcases hm with hm | rfl
    · exact List.mem_cons_of_mem _ (i5 m hm)
    · exact List.mem_cons_self _ _
  · intro m hm
    simp only [List.map_append, List.mem_append, List.map_cons, List.map_nil,
      List.mem_singleton] at hm
    rcases hm with hm | rfl
    · exact i6 m hm
    · intro hmem
      exact hfresh (i1 m hmem)
  · intro q hq
    rcases List.mem_append.mp hq with hq | hq
    · exact i7 q hq
    · rw [List.mem_singleton.mp hq]
      exact ⟨f, a, rfl, hzod⟩
  · intro ev hmem c' n' ha
    rcases List.mem_append.mp hmem with hm | hm
    · have hold := i8 ev hm c' n' ha
      have hne : code ≠ c' := by
        intro hx
        rw [hx] at hlook
        rw [hlook] at hold
        exact Option.noConfusion hold
      rw [lookupCode_cons_ne _ _ _ _ hne]
      exact hold
    · rw [List.mem_singleton.mp hm] at ha
      simp only [acceptedName] at ha
      injection ha with hpair
      obtain ⟨rfl, rfl⟩ := Prod.mk.injEq .. ▸ And.intro (congrArg Prod.fst hpair) (congrArg Prod.snd hpair)
      rw [lookupCode, if_pos rfl]
  · simp only [List.map_append, List.filterMap_append, i9]
    simp [newName]

mutual
/-- The traversal preserves the pass invariant. -/
theorem visitExpr_passInv (names0 : List String) (ctx : Ctx) (pk : PK) (e : Expr) :
    ∀ st : PassSt, PassInv names0 st → PassInv names0 (visitExpr ctx pk e st).2 := by
  cases e with
  | ident n => intro st h; exact h
  | thisE => intro st h; exact h
  | lit s => intro st h; exact h
  | member o p c =>
    intro st h
    rw [visitExpr]
    dsimp only
    exact visitExpr_passInv names0 ctx _ p _ (visitExpr_passInv names0 ctx _ o st h)
  | objE ps =>
    intro st h
    rw [visitExpr]
    dsimp only
    exact visitProps_passInv names0 ctx ps st h
  | arrow ps b =>
    intro st h
    rw [visitExpr]
    dsimp only
    exact visitExpr_passInv names0 _ .otherP b st h
  | call f a =>
    intro st h
    rw [visitExpr]
    by_cases hz : (isZodCall (.call f a) && fixOf pk) = true
    · rw [if_pos hz]
      cases hd : decideOutcome ctx (.call f a) st with
      | acceptDup code n =>
        dsimp only
        obtain ⟨hc, hl⟩ := decideOutcome_eq_acceptDup ctx _ st code n hd
        apply passInv_log_append names0 st _ h
        · intro c' n' ha
          simp only [acceptedName] at ha
          injection ha with hpair
          have h1 := congrArg Prod.fst hpair
          have h2 := congrArg Prod.snd hpair
          simp only at h1 h2
          rw [← h1, ← h2, hc]
          exact hl
        · rfl
      | acceptNew code n =>
        dsimp only
        obtain ⟨hc, hl, hn⟩ := decideOutcome_eq_acceptNew ctx _ st code n hd
        exact passInv_acceptNew names0 st f a (zShadowed ctx) code n h
          (Bool.and_eq_true_iff.mp hz).1 hc (by rw [hc]; exact hl) (by rw [hc]; exact hn)
      | skipNested =>
        dsimp only
        exact visitArgs_passInv names0 _ a _
          (visitExpr_passInv names0 _ .callP f _
            (passInv_log_append names0 st _ h (by intro c n ha; exact Option.noConfusion ha) rfl))
      | skipShadow =>
        dsimp only
        exact visitArgs_passInv names0 _ a _
          (visitExpr_passInv names0 _ .callP f _
            (passInv_log_append names0 st _ h (by intro c n ha; exact Option.noConfusion ha) rfl))
      | skipTop =>
        dsimp only
        exact visitArgs_passInv names0 _ a _
          (visitExpr_passInv names0 _ .callP f _
            (passInv_log_append names0 st _ h (by intro c n ha; exact Option.noConfusion ha) rfl))
      | skipUnsafe =>
        dsimp only
        exact visitArgs_passInv names0 _ a _
          (visitExpr_passInv names0 _ .callP f _
            (passInv_log_append names0 st _ h (by intro c n ha; exact Option.noConfusion ha) rfl))
    · rw [if_neg hz]
      dsimp only
      exact visitArgs_passInv names0 _ a _ (visitExpr_passInv names0 _ .callP f st h)

theorem visitArgs_passInv (names0 : List String) (ctx : Ctx) (a : ExprList) :
    ∀ st : PassSt, PassInv names0 st → PassInv names0 (visitArgs ctx a st).2 := by
  cases a with
  | nil => intro st h; exact h
  | cons h t =>
    intro st hi
    rw [visitArgs]
    dsimp only
    exact visitArgs_passInv names0 ctx t _ (visitExpr_passInv names0 ctx .callP h st hi)

theorem visitProps_passInv (names0 : List String) (ctx : Ctx) (ps : PropList) :
    ∀ st : PassSt, PassInv names0 st → PassInv names0 (visitProps ctx ps st).2 := by
  cases ps with
  | nil => intro st h; exact h
  | cons k c v t =>
    intro st hi
    rw [visitProps]
    dsimp only
    exact visitProps_passInv names0 ctx t _
      (visitExpr_passInv names0 ctx .otherP v _ (visitExpr_passInv names0 ctx .otherP k st hi))
end

mutual
/-- The statement traversal preserves the pass invariant. -/
theorem visitStmt_passInv (names0 : List String) (ctx : Ctx) (s : Stmt) :
    ∀ st : PassSt, PassInv names0 st → PassInv names0 (visitStmt ctx s st).2 := by
  cases s with
  | importD ns => intro st h; exact h
  | varD n i =>
    intro st h
    rw [visitStmt]
    dsimp only
    exact visitExpr_passInv names0 ctx .otherP i st h
  | funcD n ps b =>
    intro st h
    rw [visitStmt]
    dsimp only
    exact visitStmts_passInv names0 _ b st h
  | ret e =>
    intro st h
    rw [visitStmt]
    dsimp only
    exact visitExpr_passInv names0 ctx .otherP e st h
  | exprS e =>
    intro st h
    rw [visitStmt]
    dsimp only
    exact visitExpr_passInv names0 ctx .otherP e st h

theorem visitStmts_passInv (names0 : List String) (ctx : Ctx) (ss : StmtList) :
    ∀ st : PassSt, PassInv names0 st → PassInv names0 (visitStmts ctx ss st).2 := by
  cases ss with
  | nil => intro st h; exact h
  | cons s t =>
    intro st hi
    rw [visitStmts]
    dsimp only
    exact visitStmts_passInv names0 ctx t _ (visitStmt_passInv names0 ctx s st hi)
end

/-- The final state of a pass satisfies the invariant. -/
theorem runPassSt_passInv (p : StmtList) :
    PassInv (stmtListNames p) (runPassSt p).2 :=
  visitStmts_passInv _ _ p _ (passInv_init p)

/-- C2: two accepted candidates with identical canonical (printed) form are
replaced by the same generated top-level name, and exactly one declaration
for that name is queued for insertion into the program. -/
theorem dedup_shared_name_single_declaration (p : StmtList) (ev1 ev2 : DecEvent)
    (c n1 n2 : String)
    (h1 : ev1 ∈ (runPassSt p).2.log) (h2 : ev2 ∈ (runPassSt p).2.log)
    (ha1 : acceptedName ev1.outcome = some (c, n1))
    (ha2 : acceptedName ev2.outcome = some (c, n2)) :
    n1 = n2 ∧ List.count n1 ((runPassSt p).2.queue.map Prod.fst) = 1 := by
  have hinv := runPassSt_passInv p
  have hl1 := hinv.logAcc ev1 h1 c n1 ha1
  have hl2 := hinv.logAcc ev2 h2 c n2 ha2
  have hn : n1 = n2 := by
    rw [hl1] at hl2
    exact Option.some_injective _ hl2
  refine ⟨hn, ?_⟩
  have hmem : n1 ∈ (runPassSt p).2.queue.map Prod.fst := by
    rw [hinv.queueMap, List.mem_reverse]
    exact lookupCode_mem _ _ _ hl1
  exact List.count_eq_one_of_mem hinv.queueNodup hmem

/-- Witness for `dedup_shared_name_single_declaration` at the repository's
"deduplicates identical schemas" test case (two functions each returning
`z.string()`). -/
theorem dedup_shared_name_single_declaration_witness :
    ("_schema_z.string()" : String) = "_schema_z.string()" ∧
      List.count "_schema_z.string()"
        ((runPassSt (.cons (.funcD "a" []
            (.cons (.ret (.call (.member (.ident "z") (.ident "string") false) .nil)) .nil))
          (.cons (.funcD "b" []
            (.cons (.ret (.call (.member (.ident "z") (.ident "string") false) .nil)) .nil))
            .nil))).2.queue.map Prod.fst) = 1 :=
  dedup_shared_name_single_declaration
    (.cons (.funcD "a" []
        (.cons (.ret (.call (.member (.ident "z") (.ident "string") false) .nil)) .nil))
      (.cons (.funcD "b" []
        (.cons (.ret (.call (.member (.ident "z") (.ident "string") false) .nil)) .nil))
        .nil))
    ⟨.call (.member (.ident "z") (.ident "string") false) .nil, false,
      .acceptNew "z.string()" "_schema_z.string()"⟩
    ⟨.call (.member (.ident "z") (.ident "string") false) .nil, false,
      .acceptDup "z.string()" "_schema_z.string()"⟩
    "z.string()" "_schema_z.string()" "_schema_z.string()"
    (by decide) (by decide) (by decide) (by decide)

/-- Shape of a statement with its inner expressions erased: used to state
that the pass keeps every pre-existing top-level statement in place, in
order, rewriting only inside it. -/
inductive Skel where
  | importS (names : List String)
  | varS (name : String)
  | funcS (name : String) (params : List String)
  | retS
  | exprStmtS
deriving DecidableEq, Repr

/-- Skeleton of one statement. -/
def stmtSkel : Stmt → Skel
  | .importD ns => .importS ns
  | .varD n _ => .varS n
  | .funcD n ps _ => .funcS n ps
  | .ret _ => .retS
  | .exprS _ => .exprStmtS

/-- Skeletons of a statement list. -/
def stmtListSkel : StmtList → List Skel
  | .nil => []
  | .cons s t => stmtSkel s :: stmtListSkel t

mutual
/-- The statement traversal preserves each statement's skeleton. -/
theorem visitStmt_skel (ctx : Ctx) (s : Stmt) :
    ∀ st : PassSt, stmtSkel (visitStmt ctx s st).1 = stmtSkel s := by
  cases s with
  | importD ns => intro st; rfl
  | varD n i => intro st; rw [visitStmt]; rfl
  | funcD n ps b => intro st; rw [visitStmt]; rfl
  | ret e => intro st; rw [visitStmt]; rfl
  | exprS e => intro st; rw [visitStmt]; rfl

theorem visitStmts_skel (ctx : Ctx) (ss : StmtList) :
    ∀ st : PassSt, stmtListSkel (visitStmts ctx ss st).1 = stmtListSkel ss := by
  cases ss with
  | nil => intro st; rfl
  | cons s t =>
    intro st
    rw [visitStmts]
    dsimp only
    rw [stmtListSkel, visitStmt_skel ctx s st, visitStmts_skel ctx t _]
    rfl
end

/-- C3: after a full pass the output is exactly the hoisted declarations —
one per queued entry, in the order the entries were first discovered by the
traversal (the `acceptNew` events of the decision log, which is written in
traversal order) — prepended before all pre-existing top-level statements,
and the pre-existing statements keep their identity and relative order
(equal skeletons, only inner expressions rewritten). -/
theorem hoisted_decls_prepended_in_discovery_order (p : StmtList) :
    runPass p = StmtList.append (declsOf (runPassSt p).2.queue) (runPassSt p).1 ∧
      stmtListSkel (runPassSt p).1 = stmtListSkel p ∧
      (runPassSt p).2.queue.map Prod.fst =
        (runPassSt p).2.log.filterMap (fun ev => newName ev.outcome) :=
  ⟨rfl, visitStmts_skel _ p _, (runPassSt_passInv p).queueLog⟩

/-- Extension of the program scope by additional bindings (the second pass
sees the hoisted `const` declarations as extra program-scope bindings). -/
def Ctx.ext (ctx : Ctx) (ex : ScopeB) : Ctx :=
  ⟨ctx.locals, ex ++ ctx.prog, ctx.nested, ctx.inFn⟩

/-- Inversion: a `skipNested` decision means the site was nested. -/
theorem decideOutcome_eq_skipNested (ctx : Ctx) (e : Expr) (st : PassSt)
    (h : decideOutcome ctx e st = .skipNested) : ctx.nested = true := by
  unfold decideOutcome at h
  split_ifs at h with h1 h2 h3 h4
  · exact h1
  all_goals
    cases hx : lookupCode st.codeMap (printExpr e) <;>
      simp only [hx] at h <;> exact Outcome.noConfusion h

/-- Inversion: a `skipShadow` decision means not nested but shadowed. -/
theorem decideOutcome_eq_skipShadow (ctx : Ctx) (e : Expr) (st : PassSt)
    (h : decideOutcome ctx e st = .skipShadow) :
    ctx.nested = false ∧ zShadowed ctx = true := by
  unfold decideOutcome at h
  split_ifs at h with h1 h2 h3 h4
  · exact ⟨Bool.not_eq_true _ ▸ h1, h2⟩
  all_goals
    cases hx : lookupCode st.codeMap (printExpr e) <;>
      simp only [hx] at h <;> exact Outcome.noConfusion h

/-- Inversion: a `skipTop` decision means not nested, not shadowed, and no
function parent. -/
theorem decideOutcome_eq_skipTop (ctx : Ctx) (e : Expr) (st : PassSt)
    (h : decideOutcome ctx e st = .skipTop) :
    ctx.nested = false ∧ zShadowed ctx = false ∧ ctx.inFn = false := by
  unfold decideOutcome at h
  split_ifs at h with h1 h2 h3 h4
  · refine ⟨Bool.not_eq_true _ ▸ h1, Bool.not_eq_true _ ▸ h2, ?_⟩
    simpa using h3
  all_goals
    cases hx : lookupCode st.codeMap (printExpr e) <;>
      simp only [hx] at h <;> exact Outcome.noConfusion h

/-- Inversion: a `skipUnsafe` decision means the site passed the first three
checks and failed the safety analysis. -/
theorem decideOutcome_eq_skipUnsafe (ctx : Ctx) (e : Expr) (st : PassSt)
    (h : decideOutcome ctx e st = .skipUnsafe) :
    ctx.nested = false ∧ zShadowed ctx = false ∧ ctx.inFn = true ∧
      canSafelyHoist ctx e = false := by
  unfold decideOutcome at h
  split_ifs at h with h1 h2 h3 h4
  · refine ⟨Bool.not_eq_true _ ▸ h1, Bool.not_eq_true _ ▸ h2, ?_, ?_⟩
    · simpa using h3
    · simpa using h4
  all_goals
    cases hx : lookupCode st.codeMap (printExpr e) <;>
      simp only [hx] at h <;> exact Outcome.noConfusion h

/-- Forward direction for `skipShadow`. -/
theorem decideOutcome_of_shadow (ctx : Ctx) (e : Expr) (st : PassSt)
    (hn : ctx.nested = false) (hs : zShadowed ctx = true) :
    decideOutcome ctx e st = .skipShadow := by
  unfold decideOutcome
  rw [hn, hs]
  simp

/-- Forward direction for `skipTop`. -/
theorem decideOutcome_of_top (ctx : Ctx) (e : Expr) (st : PassSt)
    (hn : ctx.nested = false) (hs : zShadowed ctx = false) (hf : ctx.inFn = false) :
    decideOutcome ctx e st = .skipTop := by
  unfold decideOutcome
  rw [hn, hs, hf]
  simp

/-- Forward direction for `skipUnsafe`. -/
theorem decideOutcome_of_notSafe (ctx : Ctx) (e : Expr) (st : PassSt)
    (hn : ctx.nested = false) (hs : zShadowed ctx = false) (hf : ctx.inFn = true)
    (hu : canSafelyHoist ctx e = false) :
    decideOutcome ctx e st = .skipUnsafe := by
  unfold decideOutcome
  rw [hn, hs, hf, hu]
  simp

/-- Lookup skips a prefix whose keys do not contain the name. -/
theorem lookupA_append_of_not_mem (ex b : ScopeB) (n : String)
    (h : n ∉ ex.map Prod.fst) : lookupA (ex ++ b) n = lookupA b n := by
  induction ex with
  | nil => rfl
  | cons p t ih =>
    simp only [List.map_cons, List.mem_cons] at h
    push_neg at h
    rw [List.cons_append, lookupA, if_neg (fun hx => h.1 hx.symm), ih h.2]

/-- Classification is unchanged by a program-scope extension whose names do
not include the classified name. -/
theorem classify_ext (ex : ScopeB) (inner : List ScopeB) (ctx : Ctx) (n : String)
    (h : n ∉ ex.map Prod.fst) :
    classify inner (ctx.ext ex) n = classify inner ctx n := by
  unfold classify Ctx.ext
  rw [lookupA_append_of_not_mem ex ctx.prog n h]

/-- The `Identifier` handler is unchanged by such an extension. -/
theorem identStep_ext (ex : ScopeB) (inner : List ScopeB) (ctx : Ctx) (n : String)
    (st : SSt) (h : n ∉ ex.map Prod.fst) :
    identStep inner (ctx.ext ex) n st = identStep inner ctx n st := by
  unfold identStep
  rw [classify_ext ex inner ctx n h]

/-- The parameter fold is unchanged by such an extension. -/
theorem foldl_identStep_ext (ex : ScopeB) (inner : List ScopeB) (ctx : Ctx) :
    ∀ (ps : List String) (st : SSt), (∀ p ∈ ps, p ∉ ex.map Prod.fst) →
      ps.foldl (fun s p => identStep inner (ctx.ext ex) p s) st =
        ps.foldl (fun s p => identStep inner ctx p s) st := by
  intro ps
  induction ps with
  | nil => intro st _; rfl
  | cons p t ih =>
    intro st h
    simp only [List.foldl_cons]
    rw [identStep_ext ex inner ctx p st (h p (List.mem_cons_self p t))]
    exact ih _ fun q hq => h q (List.mem_cons_of_mem _ hq)

mutual
/-- The safety sub-traversal is unchanged by a program-scope extension whose
names do not occur in the analyzed subtree. -/
theorem safeE_ext (ex : ScopeB) (ctx : Ctx) (inner : List ScopeB) (e : Expr) :
    ∀ st : SSt, (∀ m ∈ exprNames e, m ∉ ex.map Prod.fst) →
      safeE (ctx.ext ex) inner e st = safeE ctx inner e st := by
  cases e with
  | ident n =>
    intro st h
    exact identStep_ext ex inner ctx n st (h n (by simp [exprNames]))
  | thisE => intro st _; rfl
  | lit s => intro st _; rfl
  | member o p c =>
    intro st h
    rw [safeE, safeE, safeE_ext ex ctx inner o st
      (fun m hm => h m (by simp only [exprNames, List.mem_append]; exact Or.inl hm))]
    cases c with
    | false => simp
    | true =>
      simp only [if_true]
      exact safeE_ext ex ctx inner p _
        (fun m hm => h m (by simp only [exprNames, List.mem_append]; exact Or.inr hm))
  | call f a =>
    intro st h
    rw [safeE, safeE, safeE_ext ex ctx inner f st
      (fun m hm => h m (by simp only [exprNames, List.mem_append]; exact Or.inl hm))]
    exact safeArgs_ext ex ctx inner a _
      (fun m hm => h m (by simp only [exprNames, List.mem_append]; exact Or.inr hm))
  | objE ps =>
    intro st h
    rw [safeE, safeE]
    exact safeProps_ext ex ctx inner ps st (fun m hm => h m (by simpa [exprNames] using hm))
  | arrow ps b =>
    intro st h
    rw [safeE, safeE]
    rw [foldl_identStep_ext ex _ ctx ps st
      (fun p hp => h p (by simp only [exprNames, List.mem_append]; exact Or.inl hp))]
    exact safeE_ext ex ctx _ b _
      (fun m hm => h m (by simp only [exprNames, List.mem_append]; exact Or.inr hm))

theorem safeArgs_ext (ex : ScopeB) (ctx : Ctx) (inner : List ScopeB) (a : ExprList) :
    ∀ st : SSt, (∀ m ∈ exprListNames a, m ∉ ex.map Prod.fst) →
      safeArgs (ctx.ext ex) inner a st = safeArgs ctx inner a st := by
  cases a with
  | nil => intro st _; rfl
  | cons h t =>
    intro st hn
    rw [safeArgs, safeArgs, safeE_ext ex ctx inner h st
      (fun m hm => hn m (by simp only [exprListNames, List.mem_append]; exact Or.inl hm))]
    exact safeArgs_ext ex ctx inner t _
      (fun m hm => hn m (by simp only [exprListNames, List.mem_append]; exact Or.inr hm))

theorem safeProps_ext (ex : ScopeB) (ctx : Ctx) (inner : List ScopeB) (ps : PropList) :
    ∀ st : SSt, (∀ m ∈ propListNames ps, m ∉ ex.map Prod.fst) →
      safeProps (ctx.ext ex) inner ps st = safeProps ctx inner ps st := by
  cases ps with
  | nil => intro st _; rfl
  | cons k c v t =>
    intro st hn
    rw [safeProps, safeProps]
    have hk : ∀ m ∈ exprNames k, m ∉ ex.map Prod.fst := fun m hm =>
      hn m (by simp only [propListNames, List.mem_append]; exact Or.inl (Or.inl hm))
    have hv : ∀ m ∈ exprNames v, m ∉ ex.map Prod.fst := fun m hm =>
      hn m (by simp only [propListNames, List.mem_append]; exact Or.inl (Or.inr hm))
    have ht : ∀ m ∈ propListNames t, m ∉ ex.map Prod.fst := fun m hm =>
      hn m (by simp only [propListNames, List.mem_append]; exact Or.inr hm)
    cases c with
    | false =>
      simp only [if_neg Bool.false_ne_true]
      rw [safeE_ext ex ctx inner v st hv]
      exact safeProps_ext ex ctx inner t _ ht
    | true =>
      simp only [if_true]
      rw [safeE_ext ex ctx inner k st hk, safeE_ext ex ctx inner v _ hv]
      exact safeProps_ext ex ctx inner t _ ht
end

/-- The safety decision is unchanged by a program-scope extension whose
names do not occur in the candidate. -/
theorem canSafelyHoist_ext (ex : ScopeB) (ctx : Ctx) (e : Expr)
    (h : ∀ m ∈ exprNames e, m ∉ ex.map Prod.fst) :
    canSafelyHoist (ctx.ext ex) e = canSafelyHoist ctx e := by
  unfold canSafelyHoist runSafety
  rw [safeE_ext ex ctx [] e _ h]

/-- The chain root of a member access is the chain root of its object. -/
theorem isZodCall_member (o p : Expr) (c : Bool) :
    isZodCall (.member o p c) = isZodCall o := by
  unfold isZodCall
  rw [getChainRoot]

/-- The chain root of a call is the chain root of its callee. -/
theorem isZodCall_call (f : Expr) (a : ExprList) :
    isZodCall (.call f a) = isZodCall f := by
  unfold isZodCall
  rw [getChainRoot]

/-- The traversal never turns a non-zod-rooted expression into a zod-rooted
one: replacements happen only at zod-rooted fixpoint calls, which cannot sit
on the root spine of a non-zod expression, and the generated identifiers are
underscore-prefixed. -/
theorem visitExpr_notZod (ctx : Ctx) (pk : PK) (e : Expr) :
    ∀ st : PassSt, isZodCall e = false →
      isZodCall (visitExpr ctx pk e st).1 = false := by
  cases e with
  | ident n => intro st h; exact h
  | thisE => intro st h; exact h
  | lit s => intro st h; exact h
  | member o p c =>
    intro st h
    rw [isZodCall_member] at h
    rw [visitExpr]
    dsimp only
    rw [isZodCall_member]
    exact visitExpr_notZod ctx _ o st h
  | call f a =>
    intro st h
    rw [visitExpr]
    rw [h]
    simp only [Bool.false_and, Bool.false_eq_true, if_false]
    rw [isZodCall_call]
    rw [isZodCall_call] at h
    exact visitExpr_notZod _ .callP f st h
  | objE ps =>
    intro st _
    rw [visitExpr]
    rfl
  | arrow ps b =>
    intro st _
    rw [visitExpr]
    rfl

/-- Unfolding of the visitor at a reused decision site. -/
theorem visitExpr_acceptDup_call (ctx : Ctx) (pk : PK) (f : Expr) (a : ExprList)
    (st : PassSt) (code n : String)
    (hz : (isZodCall (.call f a) && fixOf pk) = true)
    (hd : decideOutcome ctx (.call f a) st = .acceptDup code n) :
    visitExpr ctx pk (.call f a) st =
      (.ident n, ⟨st.codeMap, st.queue, st.used,
        st.log ++ [⟨.call f a, zShadowed ctx, .acceptDup code n⟩]⟩) := by
  rw [visitExpr, if_pos hz, hd]

/-- Unfolding of the visitor at a fresh decision site. -/
theorem visitExpr_acceptNew_call (ctx : Ctx) (pk : PK) (f : Expr) (a : ExprList)
    (st : PassSt) (code n : String)
    (hz : (isZodCall (.call f a) && fixOf pk) = true)
    (hd : decideOutcome ctx (.call f a) st = .acceptNew code n) :
    visitExpr ctx pk (.call f a) st =
      (.ident n, ⟨(code, n) :: st.codeMap, st.queue ++ [(n, .call f a)], n :: st.used,
        st.log ++ [⟨.call f a, zShadowed ctx, .acceptNew code n⟩]⟩) := by
  rw [visitExpr, if_pos hz, hd]

/-- Shadowing is insensitive to program-scope extension. -/
theorem zShadowed_ext (ctx : Ctx) (ex : ScopeB) :
    zShadowed (ctx.ext ex) = zShadowed ctx := rfl

mutual
/-- Stability: re-running the traversal over the output of a first run — in
a context whose program scope is extended by bindings whose names do not
occur in the original subtree (the hoisted `const` names of the first run) —
changes nothing: the output is returned as is and the registry, queue and
name pool of the second run are untouched. -/
theorem visitExpr_stable (ex : ScopeB) (ctx : Ctx) (pk : PK) (e : Expr) :
    ∀ st st2 : PassSt, (∀ m ∈ exprNames e, m ∉ ex.map Prod.fst) →
      (visitExpr (ctx.ext ex) pk (visitExpr ctx pk e st).1 st2).1 =
          (visitExpr ctx pk e st).1 ∧
        (visitExpr (ctx.ext ex) pk (visitExpr ctx pk e st).1 st2).2.core = st2.core := by
  cases e with
  | ident n => intro st st2 _; exact ⟨rfl, rfl⟩
  | thisE => intro st st2 _; exact ⟨rfl, rfl⟩
  | lit s => intro st st2 _; exact ⟨rfl, rfl⟩
  | member o p c =>
    intro st st2 h
    have hO : ∀ m ∈ exprNames o, m ∉ ex.map Prod.fst := fun m hm =>
      h m (by simp only [exprNames, List.mem_append]; exact Or.inl hm)
    have hP : ∀ m ∈ exprNames p, m ∉ ex.map Prod.fst := fun m hm =>
      h m (by simp only [exprNames, List.mem_append]; exact Or.inr hm)
    rw [visitExpr]
    dsimp only
    rw [visitExpr]
    dsimp only
    obtain ⟨ho1, ho2⟩ := visitExpr_stable ex ctx (.memberP (childGp pk)) o st st2 hO
    obtain ⟨hp1, hp2⟩ := visitExpr_stable ex ctx (.memberP (childGp pk)) p
      (visitExpr ctx (.memberP (childGp pk)) o st).2
      (visitExpr (ctx.ext ex) (.memberP (childGp pk))
        (visitExpr ctx (.memberP (childGp pk)) o st).1 st2).2 hP
    constructor
    · rw [ho1, hp1]
    · rw [hp2, ho2]
  | objE ps =>
    intro st st2 h
    rw [visitExpr]
    dsimp only
    rw [visitExpr]
    dsimp only
    obtain ⟨h1, h2⟩ := visitProps_stable ex ctx ps st st2
      (fun m hm => h m (by simpa [exprNames] using hm))
    constructor
    · rw [h1]
    · exact h2
  | arrow ps b =>
    intro st st2 h
    have hB : ∀ m ∈ exprNames b, m ∉ ex.map Prod.fst := fun m hm =>
      h m (by simp only [exprNames, List.mem_append]; exact Or.inr hm)
    rw [visitExpr]
    dsimp only
    rw [visitExpr]
    dsimp only [Ctx.ext]
    have ih := visitExpr_stable ex
      ⟨(ps.map fun p => (p, BindKind.paramB)) :: ctx.locals, ctx.prog, ctx.nested, true⟩
      .otherP b st st2 hB
    simp only [Ctx.ext] at ih
    obtain ⟨h1, h2⟩ := ih
    constructor
    · rw [h1]
    · exact h2
  | call f a =>
    intro st st2 h
    have hF : ∀ m ∈ exprNames f, m ∉ ex.map Prod.fst := fun m hm =>
      h m (by simp only [exprNames, List.mem_append]; exact Or.inl hm)
    have hA : ∀ m ∈ exprListNames a, m ∉ ex.map Prod.fst := fun m hm =>
      h m (by simp only [exprNames, List.mem_append]; exact Or.inr hm)
    by_cases hz : (isZodCall (.call f a) && fixOf pk) = true
    · cases hd : decideOutcome ctx (.call f a) st with
      | acceptDup code n =>
        rw [visitExpr_acceptDup_call ctx pk f a st code n hz hd]
        exact ⟨rfl, rfl⟩
      | acceptNew code n =>
        rw [visitExpr_acceptNew_call ctx pk f a st code n hz hd]
        exact ⟨rfl, rfl⟩
      | skipNested =>
        rw [(visitExpr_skip_call ctx pk f a st hz (Or.inl hd)).1]
        exact visitExpr_skip_call (ctx.ext ex) pk f a st2 hz
          (Or.inl (decideOutcome_nested _ _ _
            (by simp only [Ctx.ext]; exact decideOutcome_eq_skipNested ctx _ st hd)))
      | skipShadow =>
        obtain ⟨hn, hs⟩ := decideOutcome_eq_skipShadow ctx _ st hd
        rw [(visitExpr_skip_call ctx pk f a st hz (Or.inr (Or.inl hd))).1]
        exact visitExpr_skip_call (ctx.ext ex) pk f a st2 hz
          (Or.inr (Or.inl (decideOutcome_of_shadow _ _ _
            (by simp only [Ctx.ext]; exact hn) (by rw [zShadowed_ext]; exact hs))))
      | skipTop =>
        obtain ⟨hn, hs, hf⟩ := decideOutcome_eq_skipTop ctx _ st hd
        rw [(visitExpr_skip_call ctx pk f a st hz (Or.inr (Or.inr (Or.inl hd)))).1]
        exact visitExpr_skip_call (ctx.ext ex) pk f a st2 hz
          (Or.inr (Or.inr (Or.inl (decideOutcome_of_top _ _ _
            (by simp only [Ctx.ext]; exact hn) (by rw [zShadowed_ext]; exact hs)
            (by simp only [Ctx.ext]; exact hf)))))
      | skipUnsafe =>
        obtain ⟨hn, hs, hf, hu⟩ := decideOutcome_eq_skipUnsafe ctx _ st hd
        rw [(visitExpr_skip_call ctx pk f a st hz (Or.inr (Or.inr (Or.inr hd)))).1]
        exact visitExpr_skip_call (ctx.ext ex) pk f a st2 hz
          (Or.inr (Or.inr (Or.inr (decideOutcome_of_notSafe _ _ _
            (by simp only [Ctx.ext]; exact hn) (by rw [zShadowed_ext]; exact hs)
            (by simp only [Ctx.ext]; exact hf)
            (by rw [canSafelyHoist_ext ex ctx _ h]; exact hu)))))
    · by_cases hzc : isZodCall (.call f a) = true
      · have hp1 : (visitExpr ctx pk (.call f a) st).1 = .call f a := by
          rw [visitExpr, if_neg hz]
          dsimp only
          rw [(visitExpr_inert ⟨ctx.locals, ctx.prog, ctx.nested || isZodCall (.call f a),
                ctx.inFn⟩ .callP f _ (Or.inl (by rw [hzc]; simp))).1,
              (visitArgs_inert ⟨ctx.locals, ctx.prog, ctx.nested || isZodCall (.call f a),
                ctx.inFn⟩ a _ (Or.inl (by rw [hzc]; simp))).1]
        rw [hp1]
        rw [visitExpr, if_neg hz]
        dsimp only [Ctx.ext]
        constructor
        · rw [(visitExpr_inert ⟨ctx.locals, ex ++ ctx.prog,
                ctx.nested || isZodCall (.call f a), ctx.inFn⟩ .callP f _
                (Or.inl (by rw [hzc]; simp))).1,
              (visitArgs_inert ⟨ctx.locals, ex ++ ctx.prog,
                ctx.nested || isZodCall (.call f a), ctx.inFn⟩ a _
                (Or.inl (by rw [hzc]; simp))).1]
        · rw [(visitArgs_inert ⟨ctx.locals, ex ++ ctx.prog,
                ctx.nested || isZodCall (.call f a), ctx.inFn⟩ a _
                (Or.inl (by rw [hzc]; simp))).2,
              (visitExpr_inert ⟨ctx.locals, ex ++ ctx.prog,
                ctx.nested || isZodCall (.call f a), ctx.inFn⟩ .callP f _
                (Or.inl (by rw [hzc]; simp))).2]
      · rw [Bool.not_eq_true] at hzc
        have hf0 : isZodCall f = false := by rw [← isZodCall_call f a]; exact hzc
        rw [visitExpr, if_neg hz]
        dsimp only
        rw [hzc]
        simp only [Bool.or_false]
        have heta : (⟨ctx.locals, ctx.prog, ctx.nested, ctx.inFn⟩ : Ctx) = ctx := rfl
        rw [heta]
        have hzf1 : isZodCall (visitExpr ctx .callP f st).1 = false :=
          visitExpr_notZod ctx .callP f st hf0
        have hcond : ¬ ((isZodCall (.call (visitExpr ctx .callP f st).1
            (visitArgs ctx a (visitExpr ctx .callP f st).2).1) && fixOf pk) = true) := by
          rw [isZodCall_call, hzf1]
          simp
        rw [visitExpr, if_neg hcond]
        dsimp only [Ctx.ext]
        rw [isZodCall_call, hzf1]
        simp only [Bool.or_false]
        have ihf := visitExpr_stable ex ctx .callP f st st2 hF
        simp only [Ctx.ext] at ihf
        obtain ⟨hf1, hf2⟩ := ihf
        have iha := visitArgs_stable ex ctx a (visitExpr ctx .callP f st).2
          (visitExpr ⟨ctx.locals, ex ++ ctx.prog, ctx.nested, ctx.inFn⟩ .callP
            (visitExpr ctx .callP f st).1 st2).2 hA
        simp only [Ctx.ext] at iha
        obtain ⟨ha1, ha2⟩ := iha
        constructor
        · rw [hf1, ha1]
        · rw [ha2, hf2]

theorem visitArgs_stable (ex : ScopeB) (ctx : Ctx) (a : ExprList) :
    ∀ st st2 : PassSt, (∀ m ∈ exprListNames a, m ∉ ex.map Prod.fst) →
      (visitArgs (ctx.ext ex) (visitArgs ctx a st).1 st2).1 = (visitArgs ctx a st).1 ∧
        (visitArgs (ctx.ext ex) (visitArgs ctx a st).1 st2).2.core = st2.core := by
  cases a with
  | nil => intro st st2 _; exact ⟨rfl, rfl⟩
  | cons hh t =>
    intro st st2 h
    have hH : ∀ m ∈ exprNames hh, m ∉ ex.map Prod.fst := fun m hm =>
      h m (by simp only [exprListNames, List.mem_append]; exact Or.inl hm)
    have hT : ∀ m ∈ exprListNames t, m ∉ ex.map Prod.fst := fun m hm =>
      h m (by simp only [exprListNames, List.mem_append]; exact Or.inr hm)
    rw [visitArgs]
    dsimp only
    rw [visitArgs]
    dsimp only
    obtain ⟨h1, h2⟩ := visitExpr_stable ex ctx .callP hh st st2 hH
    obtain ⟨h3, h4⟩ := visitArgs_stable ex ctx t (visitExpr ctx .callP hh st).2
      (visitExpr (ctx.ext ex) .callP (visitExpr ctx .callP hh st).1 st2).2 hT
    constructor
    · rw [h1, h3]
    · rw [h4, h2]

theorem visitProps_stable (ex : ScopeB) (ctx : Ctx) (ps : PropList) :
    ∀ st st2 : PassSt, (∀ m ∈ propListNames ps, m ∉ ex.map Prod.fst) →
      (visitProps (ctx.ext ex) (visitProps ctx ps st).1 st2).1 = (visitProps ctx ps st).1 ∧
        (visitProps (ctx.ext ex) (visitProps ctx ps st).1 st2).2.core = st2.core := by
  cases ps with
  | nil => intro st st2 _; exact ⟨rfl, rfl⟩
  | cons k c v t =>
    intro st st2 h
    have hK : ∀ m ∈ exprNames k, m ∉ ex.map Prod.fst := fun m hm =>
      h m (by simp only [propListNames, List.mem_append]; exact Or.inl (Or.inl hm))
    have hV : ∀ m ∈ exprNames v, m ∉ ex.map Prod.fst := fun m hm =>
      h m (by simp only [propListNames, List.mem_append]; exact Or.inl (Or.inr hm))
    have hT : ∀ m ∈ propListNames t, m ∉ ex.map Prod.fst := fun m hm =>
      h m (by simp only [propListNames, List.mem_append]; exact Or.inr hm)
    rw [visitProps]
    dsimp only
    rw [visitProps]
    dsimp only
    obtain ⟨h1, h2⟩ := visitExpr_stable ex ctx .otherP k st st2 hK
    obtain ⟨h3, h4⟩ := visitExpr_stable ex ctx .otherP v (visitExpr ctx .otherP k st).2
      (visitExpr (ctx.ext ex) .otherP (visitExpr ctx .otherP k st).1 st2).2 hV
    obtain ⟨h5, h6⟩ := visitProps_stable ex ctx t
      (visitExpr ctx .otherP v (visitExpr ctx .otherP k st).2).2
      (visitExpr (ctx.ext ex) .otherP
        (visitExpr ctx .otherP v (visitExpr ctx .otherP k st).2).1
        (visitExpr (ctx.ext ex) .otherP (visitExpr ctx .otherP k st).1 st2).2).2 hT
    constructor
    · rw [h1, h3, h5]
    · rw [h6, h4, h2]
end

/-- Rewriting a statement does not change the binding it contributes. -/
theorem bindOf_visitStmt (ctx : Ctx) (s : Stmt) (st : PassSt) :
    bindOf (visitStmt ctx s st).1 = bindOf s := by
  cases s <;> simp [visitStmt, bindOf]

/-- Rewriting a statement list does not change the scope it spans. -/
theorem collectBinds_visitStmts (ctx : Ctx) (ss : StmtList) :
    ∀ st : PassSt, collectBinds (visitStmts ctx ss st).1 = collectBinds ss := by
  cases ss with
  | nil => intro st; rfl
  | cons s t =>
    intro st
    rw [visitStmts]
    dsimp only
    rw [collectBinds, collectBinds, bindOf_visitStmt, collectBinds_visitStmts ctx t _]

mutual
/-- Statement-level stability: re-running the statement traversal over the
rewritten statements, with the program scope extended by fresh names,
changes nothing. -/
theorem visitStmt_stable (ex : ScopeB) (ctx : Ctx) (s : Stmt) :
    ∀ st st2 : PassSt, (∀ m ∈ stmtNames s, m ∉ ex.map Prod.fst) →
      (visitStmt (ctx.ext ex) (visitStmt ctx s st).1 st2).1 = (visitStmt ctx s st).1 ∧
        (visitStmt (ctx.ext ex) (visitStmt ctx s st).1 st2).2.core = st2.core := by
  cases s with
  | importD ns => intro st st2 _; exact ⟨rfl, rfl⟩
  | varD n i =>
    intro st st2 h
    have hI : ∀ m ∈ exprNames i, m ∉ ex.map Prod.fst := fun m hm =>
      h m (by simp only [stmtNames, List.mem_cons]; exact Or.inr hm)
    rw [visitStmt]
    dsimp only
    rw [visitStmt]
    dsimp only
    obtain ⟨h1, h2⟩ := visitExpr_stable ex ctx .otherP i st st2 hI
    exact ⟨by rw [h1], h2⟩
  | funcD n ps b =>
    intro st st2 h
    have hB : ∀ m ∈ stmtListNames b, m ∉ ex.map Prod.fst := fun m hm =>
      h m (by
        simp only [stmtNames, List.mem_cons, List.mem_append]
        tauto)
    rw [visitStmt]
    dsimp only
    rw [visitStmt]
    dsimp only [Ctx.ext]
    rw [collectBinds_visitStmts]
    have ih := visitStmts_stable ex
      ⟨((ps.map fun p => (p, BindKind.paramB)) ++ collectBinds b) :: ctx.locals,
        ctx.prog, ctx.nested, true⟩ b st st2 hB
    simp only [Ctx.ext] at ih
    obtain ⟨h1, h2⟩ := ih
    exact ⟨by rw [h1], h2⟩
  | ret e =>
    intro st st2 h
    rw [visitStmt]
    dsimp only
    rw [visitStmt]
    dsimp only
    obtain ⟨h1, h2⟩ := visitExpr_stable ex ctx .otherP e st st2 (fun m hm => h m hm)
    exact ⟨by rw [h1], h2⟩
  | exprS e =>
    intro st st2 h
    rw [visitStmt]
    dsimp only
    rw [visitStmt]
    dsimp only
    obtain ⟨h1, h2⟩ := visitExpr_stable ex ctx .otherP e st st2 (fun m hm => h m hm)
    exact ⟨by rw [h1], h2⟩

theorem visitStmts_stable (ex : ScopeB) (ctx : Ctx) (ss : StmtList) :
    ∀ st st2 : PassSt, (∀ m ∈ stmtListNames ss, m ∉ ex.map Prod.fst) →
      (visitStmts (ctx.ext ex) (visitStmts ctx ss st).1 st2).1 = (visitStmts ctx ss st).1 ∧
        (visitStmts (ctx.ext ex) (visitStmts ctx ss st).1 st2).2.core = st2.core := by
  cases ss with
  | nil => intro st st2 _; exact ⟨rfl, rfl⟩
  | cons s t =>
    intro st st2 h
    have hS : ∀ m ∈ stmtNames s, m ∉ ex.map Prod.fst := fun m hm =>
      h m (by simp only [stmtListNames, List.mem_append]; exact Or.inl hm)
    have hT : ∀ m ∈ stmtListNames t, m ∉ ex.map Prod.fst := fun m hm =>
      h m (by simp only [stmtListNames, List.mem_append]; exact Or.inr hm)
    rw [visitStmts]
    dsimp only
    rw [visitStmts]
    dsimp only
    obtain ⟨h1, h2⟩ := visitStmt_stable ex ctx s st st2 hS
    obtain ⟨h3, h4⟩ := visitStmts_stable ex ctx t (visitStmt ctx s st).2
      (visitStmt (ctx.ext ex) (visitStmt ctx s st).1 st2).2 hT
    constructor
    · rw [h1, h3]
    · rw [h4, h2]
end

/-- The statement traversal distributes over appending. -/
theorem visitStmts_append (ctx : Ctx) (a : StmtList) :
    ∀ (b : StmtList) (st : PassSt),
      visitStmts ctx (a.append b) st =
        (StmtList.append (visitStmts ctx a st).1
            (visitStmts ctx b (visitStmts ctx a st).2).1,
          (visitStmts ctx b (visitStmts ctx a st).2).2) := by
  cases a with
  | nil => intro b st; rfl
  | cons s t =>
    intro b st
    rw [StmtList.append, visitStmts]
    try dsimp only
    rw [visitStmts_append ctx t b _]
    rw [visitStmts]
    try dsimp only
    rw [StmtList.append]

/-- Scope collection distributes over appending. -/
theorem collectBinds_append (a : StmtList) :
    ∀ b : StmtList, collectBinds (a.append b) = collectBinds a ++ collectBinds b := by
  cases a with
  | nil => intro b; rfl
  | cons s t =>
    intro b
    rw [StmtList.append, collectBinds, collectBinds, collectBinds_append t b,
      List.append_assoc]

/-- The scope spanned by the hoisted declarations: one `const` binding per
queued entry. -/
theorem collectBinds_declsOf (q : List (String × Expr)) :
    collectBinds (declsOf q) = q.map (fun x => (x.1, BindKind.varB)) := by
  induction q with
  | nil => rfl
  | cons x t ih =>
    rw [declsOf, collectBinds, ih]
    rfl

/-- Hoisted declarations are inert under a second pass: each initializer is
a zod-rooted call at program level, so the decision site skips with "no
function parent" and its children are nested zod calls. -/
theorem visitStmts_decls_inert (prog : ScopeB) (q : List (String × Expr))
    (hq : ∀ x ∈ q, ∃ f a, x.2 = Expr.call f a ∧ isZodCall (Expr.call f a) = true) :
    ∀ st : PassSt, (visitStmts ⟨[], prog, false, false⟩ (declsOf q) st).1 = declsOf q ∧
      (visitStmts ⟨[], prog, false, false⟩ (declsOf q) st).2.core = st.core := by
  induction q with
  | nil => intro st; exact ⟨rfl, rfl⟩
  | cons x t ih =>
    intro st
    obtain ⟨f, a, he, hz⟩ := hq x (List.mem_cons_self x t)
    have ht : ∀ y ∈ t, ∃ f a, y.2 = Expr.call f a ∧ isZodCall (Expr.call f a) = true :=
      fun y hy => hq y (List.mem_cons_of_mem _ hy)
    rw [declsOf, visitStmts]
    dsimp only
    rw [visitStmt]
    dsimp only
    rw [he]
    have hskip := visitExpr_skip_call ⟨[], prog, false, false⟩ .otherP f a st
      (by rw [hz]; rfl)
      (Or.inr (Or.inr (Or.inl (decideOutcome_of_top _ _ _ rfl rfl rfl))))
    rw [hskip.1]
    obtain ⟨ih1, ih2⟩ := ih ht (visitExpr ⟨[], prog, false, false⟩ .otherP (.call f a) st).2
    rw [ih1]
    refine ⟨rfl, ?_⟩
    rw [ih2, hskip.2]

/-- C4: the pass is idempotent — running it on its own output performs zero
additional relocations, so running it twice yields the same output as
running it once.  In the second run every hoisted declaration's initializer
sits at program level (no function parent), every surviving zod site skips
for the same reason it skipped in the first run (nesting, shadowing, program
level and safety are all stable, the fresh `_schema` names being absent from
the original program), and every accepted site has become a plain
identifier. -/
theorem runPass_idempotent (p : StmtList) : runPass (runPass p) = runPass p := by
  have hinv := runPassSt_passInv p
  have hQm : (((runPassSt p).2.queue.map (fun x => (x.1, BindKind.varB))).map Prod.fst) =
      (runPassSt p).2.queue.map Prod.fst := by
    simp
  have hfresh : ∀ m ∈ stmtListNames p,
      m ∉ ((runPassSt p).2.queue.map (fun x => (x.1, BindKind.varB))).map Prod.fst := by
    intro m hm hmem
    rw [hQm] at hmem
    exact hinv.queueFresh m hmem hm
  have hbinds : collectBinds (runPass p) =
      ((runPassSt p).2.queue.map (fun x => (x.1, BindKind.varB))) ++ collectBinds p := by
    rw [runPass, collectBinds_append, collectBinds_declsOf]
    rw [show (runPassSt p).1 = (visitStmts (topCtx p) p (initSt p)).1 from rfl]
    rw [collectBinds_visitStmts]
  have hsplit := visitStmts_append (topCtx (runPass p)) (declsOf (runPassSt p).2.queue)
    (runPassSt p).1 (initSt (runPass p))
  have hde := visitStmts_decls_inert (collectBinds (runPass p)) (runPassSt p).2.queue
    hinv.queueZod (initSt (runPass p))
  have hctxd : (⟨[], collectBinds (runPass p), false, false⟩ : Ctx) = topCtx (runPass p) := rfl
  rw [hctxd] at hde
  have hctx2 : Ctx.ext (topCtx p)
      ((runPassSt p).2.queue.map (fun x => (x.1, BindKind.varB))) = topCtx (runPass p) := by
    rw [topCtx, topCtx, hbinds]
    rfl
  have hstab := visitStmts_stable
    ((runPassSt p).2.queue.map (fun x => (x.1, BindKind.varB)))
    (topCtx p) p (initSt p)
    ((visitStmts (topCtx (runPass p)) (declsOf (runPassSt p).2.queue)
      (initSt (runPass p))).2)
    hfresh
  rw [hctx2] at hstab
  rw [show visitStmts (topCtx p) p (initSt p) = runPassSt p from rfl] at hstab
  have hX : runPassSt (runPass p) =
      visitStmts (topCtx (runPass p))
        (StmtList.append (declsOf (runPassSt p).2.queue) (runPassSt p).1)
        (initSt (runPass p)) := rfl
  have hcore : (visitStmts (topCtx (runPass p)) (runPassSt p).1
      ((visitStmts (topCtx (runPass p)) (declsOf (runPassSt p).2.queue)
        (initSt (runPass p))).2)).2.core = (initSt (runPass p)).core :=
    hstab.2.trans hde.2
  have hqueue : (visitStmts (topCtx (runPass p)) (runPassSt p).1
      ((visitStmts (topCtx (runPass p)) (declsOf (runPassSt p).2.queue)
        (initSt (runPass p))).2)).2.queue = [] := by
    have := congrArg (fun t => t.2.1) hcore
    simpa [PassSt.core, initSt] using this
  conv_lhs => rw [runPass]
  rw [hX, hsplit]
  dsimp only
  rw [hqueue, hde.1, hstab.1]
  rw [show declsOf [] = StmtList.nil from rfl]
  rw [show ∀ x : StmtList, StmtList.nil.append x = x from fun x => rfl]
  rfl
